import Mathlib

/-!
# fme: an in-memory file manager emulator

A shallow embedding of `src/fme.cpp` and a verification development over it.

Modelling conventions.

* `std::string` is a Lean `String`; `operator<` on strings is `strLess`, the
  lexicographic comparison of the character sequences.
* `std::vector<Node>` is a `List Node`.
* A `Node*` is the list of child offsets leading from the root to the pointee
  (`Ptr`).  The last offset is a slot of the buffer of the vector that owns
  the pointee.  Functions that return a pointer return the pointee with it.
* A command returns `Option (Bool × Node)`: the `bool` result and the tree
  afterwards.  `none` stands for undefined behaviour (`path.end() - 1` on an
  empty path, or a pointer to a vector slot that was destroyed).
-/

namespace Fme

/-- A path is `std::vector<std::string>`. -/
abbrev Path := List String

/-- A node pointer: the child offsets from the root down to the pointee. -/
abbrev Ptr := List Nat

/-- Lexicographic comparison of character sequences, as done by
`std::string::compare`. -/
def lexLess : List Char → List Char → Bool
  | [], [] => false
  | [], _ :: _ => true
  | _ :: _, [] => false
  | a :: as, b :: bs =>
    if a.toNat < b.toNat then true
    else if b.toNat < a.toNat then false
    else lexLess as bs

/-- The `operator<` of `std::string`. -/
def strLess (a b : String) : Bool := lexLess a.data b.data

/-- The class `Node`: a name, the directory flag and the children. -/
structure Node where
  name_ : String
  isDirectory_ : Bool
  nodes_ : List Node

/-- The type `Nodes` is `std::vector<Node>`. -/
abbrev Nodes := List Node

/-- The loop of `std::lower_bound`: halve the range `[first, first + len)`
until it is empty.  `fuel` bounds the number of iterations; `len` is enough. -/
def lowerBoundLoop (nodes : Nodes) (name : String) : Nat → Nat → Nat → Nat
  | 0, first, _ => first
  | fuel + 1, first, len =>
    if len = 0 then first
    else
      match nodes[first + len / 2]? with
      | some middle =>
        if strLess middle.name_ name then
          lowerBoundLoop nodes name fuel (first + len / 2 + 1) (len - len / 2 - 1)
        else
          lowerBoundLoop nodes name fuel first (len / 2)
      | none => first

/-- The call `std::lower_bound(nodes_.begin(), nodes_.end(), name)` with
`Node::operator<(const std::string&)`: the offset of the returned iterator. -/
def lower_bound (nodes : Nodes) (name : String) : Nat :=
  lowerBoundLoop nodes name nodes.length 0 nodes.length

namespace Node

/-- The method `Node::find(const std::string&)`: the offset of the child found
by the binary search together with that child, `none` for `nullptr`. -/
def find (this : Node) (name : String) : Option (Nat × Node) :=
  match this.nodes_[lower_bound this.nodes_ name]? with
  | some c => if c.name_ = name then some (lower_bound this.nodes_ name, c) else none
  | none => none

/-- The method `Node::remove`. -/
def remove (this : Node) (name : String) : Node :=
  match this.nodes_[lower_bound this.nodes_ name]? with
  | some c =>
    if c.name_ = name then
      ⟨this.name_, this.isDirectory_,
        this.nodes_.take (lower_bound this.nodes_ name) ++
          this.nodes_.drop (lower_bound this.nodes_ name + 1)⟩
    else this
  | none => this

/-- The vector after `nodes_.insert(pos, Node{name, isDirectory, nodes})`. -/
def inserted (this : Node) (pos : Nat) (name : String) (isDirectory : Bool)
    (nodes : Nodes) : Node :=
  ⟨this.name_, this.isDirectory_,
    this.nodes_.take pos ++ Node.mk name isDirectory nodes :: this.nodes_.drop pos⟩

/-- The method `Node::add`: the offset of the inserted child (`none` for
`nullptr`) and the node afterwards. -/
def add (this : Node) (name : String) (isDirectory : Bool) (nodes : Nodes) :
    Option Nat × Node :=
  match this.nodes_[lower_bound this.nodes_ name]? with
  | some c =>
    if name = c.name_ then (none, this)
    else (some (lower_bound this.nodes_ name),
      this.inserted (lower_bound this.nodes_ name) name isDirectory nodes)
  | none => (some (lower_bound this.nodes_ name),
      this.inserted (lower_bound this.nodes_ name) name isDirectory nodes)

/-- The method `Node::find(PathIterator begin, PathIterator end)`: the pointer
to the node reached (relative to `this`) and that node. -/
def findPath (this : Node) : List String → Option (Ptr × Node)
  | [] => some ([], this)
  | seg :: rest =>
    match this.find seg with
    | none => none
    | some (i, next) =>
      if next.isDirectory_ then
        match next.findPath rest with
        | some (p, result) => some (i :: p, result)
        | none => none
      else none

/-- Reading through a pointer: the node at the given offsets, `none` when an
offset is past the end of a vector. -/
def deref (this : Node) : Ptr → Option Node
  | [] => some this
  | i :: p =>
    match this.nodes_[i]? with
    | some c => c.deref p
    | none => none

/-- Writing through a pointer: the tree in which the pointee is replaced by its
image under `f`, `none` when the pointer does not address a live node. -/
def update (this : Node) : Ptr → (Node → Node) → Option Node
  | [], f => some (f this)
  | i :: p, f =>
    match this.nodes_[i]? with
    | some c =>
      match c.update p f with
      | some c' => some ⟨this.name_, this.isDirectory_, this.nodes_.set i c'⟩
      | none => none
    | none => none

mutual
/-- Number of nodes of the subtree rooted at a node, the node included. -/
def size : Node → Nat
  | ⟨_, _, ns⟩ => 1 + sizeList ns
/-- Number of nodes of a forest. -/
def sizeList : List Node → Nat
  | [] => 0
  | c :: cs => c.size + sizeList cs
end

/-- Strictly increasing names, entry after entry. -/
def increasing : List Node → Bool
  | [] => true
  | [_] => true
  | a :: b :: rest => strLess a.name_ b.name_ && increasing (b :: rest)

mutual
/-- The children of every node of the subtree are strictly increasing by
name: the precondition of `std::lower_bound` at every node. -/
def sorted : Node → Bool
  | ⟨_, _, ns⟩ => increasing ns && sortedList ns
/-- Every node of a forest is `sorted`. -/
def sortedList : List Node → Bool
  | [] => true
  | c :: cs => c.sorted && sortedList cs
end

/-- The addressing used by every command: all segments but the last are
resolved with `find(begin, end - 1)`, the last one with `find(*end)` in the
directory reached.  Returns the pointer to the node named and that node. -/
def lookup (root : Node) (path : Path) : Option (Ptr × Node) :=
  match path.getLast? with
  | none => none
  | some last =>
    match root.findPath path.dropLast with
    | none => none
    | some (p, dir) =>
      match dir.find last with
      | none => none
      | some (i, n) => some (p ++ [i], n)

end Node

/-- The member `Main::root` at start: `Node root{"", true}`. -/
def initRoot : Node := ⟨"", true, []⟩

/-- The method `Main::makeDirectoryNode`. -/
def makeDirectoryNode (root : Node) (args : List Path) : Option (Bool × Node) :=
  match args with
  | [path] =>
    match path.getLast? with
    | none => none
    | some last =>
      match root.findPath path.dropLast with
      | none => some (false, root)
      | some (dstDir, dir) =>
        match dir.find last with
        | none =>
          match root.update dstDir (fun d => (d.add last true []).2) with
          | some root' => some (true, root')
          | none => none
        | some (_, dstNode) =>
          if !dstNode.isDirectory_ then some (false, root) else some (true, root)
  | _ => some (false, root)

/-- The method `Main::makeFileNode`. -/
def makeFileNode (root : Node) (args : List Path) : Option (Bool × Node) :=
  match args with
  | [path] =>
    match path.getLast? with
    | none => none
    | some last =>
      match root.findPath path.dropLast with
      | none => some (false, root)
      | some (dstDir, dir) =>
        match dir.find last with
        | none =>
          match root.update dstDir (fun d => (d.add last false []).2) with
          | some root' => some (true, root')
          | none => none
        | some (_, dstNode) =>
          if !dstNode.isDirectory_ then some (false, root) else some (true, root)
  | _ => some (false, root)

/-- The method `Main::removeNode`. -/
def removeNode (root : Node) (args : List Path) : Option (Bool × Node) :=
  match args with
  | [path] =>
    match path.getLast? with
    | none => none
    | some last =>
      if path.length = 1 ∧ last = "" then some (false, root)
      else
        match root.findPath path.dropLast with
        | none => some (false, root)
        | some (dstDir, dir) =>
          match dir.find last with
          | none => some (false, root)
          | some _ =>
            match root.update dstDir (fun d => d.remove last) with
            | some root' => some (true, root')
            | none => none
  | _ => some (false, root)

/-- The method `Main::copyNode`. -/
def copyNode (root : Node) (args : List Path) : Option (Bool × Node) :=
  match args with
  | [srcPath, dstPath] =>
    match srcPath.getLast? with
    | none => none
    | some srcEnd =>
      match root.findPath srcPath.dropLast with
      | none => some (false, root)
      | some (_, srcDir) =>
        match srcDir.find srcEnd with
        | none => some (false, root)
        | some (_, srcNode) =>
          match dstPath.getLast? with
          | none => none
          | some dstEnd =>
            match root.findPath dstPath.dropLast with
            | none => some (false, root)
            | some (dstDir, dir) =>
              match dir.find dstEnd with
              | some (j, dstNode) =>
                if dstNode.isDirectory_ then
                  match root.update (dstDir ++ [j])
                      (fun d => (d.add srcEnd srcNode.isDirectory_ srcNode.nodes_).2) with
                  | some root' => some (true, root')
                  | none => none
                else some (false, root)
              | none =>
                match root.update dstDir
                    (fun d => (d.add dstEnd srcNode.isDirectory_ srcNode.nodes_).2) with
                | some root' => some (true, root')
                | none => none
  | _ => some (false, root)

/-- Where a pointer `p` taken before `nodes_.erase` of slot `i` in the vector of
the node at `srcDir` points afterwards.

A pointer is an address in the buffer of the vector that owns the pointee.
`erase` move-assigns the later elements one slot down inside that buffer; the
move assignment of a `Node` hands the buffer of its `nodes_` over to the slot
below.  So a pointer into the erased vector itself keeps its slot (and now
sees the element that was moved there), a pointer below a later sibling
follows the buffer to the sibling's new slot, and a pointer below the erased
element is left in the vector that `moveNode` moved out of the tree (`none`). -/
def afterErase : Ptr → Nat → Ptr → Option Ptr
  | [], _, [] => some []
  | [], _, [k] => some [k]
  | [], i, j :: k :: rest =>
    if j < i then some (j :: k :: rest)
    else if j = i then none
    else some ((j - 1) :: k :: rest)
  | _ :: _, _, [] => some []
  | a :: srcDir, i, b :: p =>
    if a = b then
      match afterErase srcDir i p with
      | some p' => some (b :: p')
      | none => none
    else some (b :: p)

/-- The method `Main::moveNode`. -/
def moveNode (root : Node) (args : List Path) : Option (Bool × Node) :=
  match args with
  | [srcPath, dstPath] =>
    match srcPath.getLast? with
    | none => none
    | some srcEnd =>
      match root.findPath srcPath.dropLast with
      | none => some (false, root)
      | some (srcDir, sdir) =>
        match sdir.find srcEnd with
        | none => some (false, root)
        | some (i, srcNode) =>
          match dstPath.getLast? with
          | none => none
          | some dstEnd =>
            match root.findPath dstPath.dropLast with
            | none => some (false, root)
            | some (dstDir, dir) =>
              match dir.find dstEnd with
              | some (j, dstNode) =>
                if dstNode.isDirectory_ then
                  match root.update srcDir (fun d => d.remove srcEnd) with
                  | none => none
                  | some root1 =>
                    match afterErase srcDir i (dstDir ++ [j]) with
                    | none => some (true, root1)
                    | some p =>
                      match root1.update p
                          (fun d => (d.add srcEnd srcNode.isDirectory_ srcNode.nodes_).2) with
                      | some root' => some (true, root')
                      | none => none
                else some (false, root)
              | none =>
                match root.update srcDir (fun d => d.remove srcEnd) with
                | none => none
                | some root1 =>
                  match afterErase srcDir i dstDir with
                  | none => some (true, root1)
                  | some p =>
                    match root1.update p
                        (fun d => (d.add dstEnd srcNode.isDirectory_ srcNode.nodes_).2) with
                    | some root' => some (true, root')
                    | none => none
  | _ => some (false, root)

/-- The loop of `splitPath` after the leading separator: `cur` is the segment
being read (`path.substr(start, ...)`), `result` the segments read so far. -/
def splitLoop : List Char → List Char → Path → Path
  | [], cur, result => result ++ [String.mk cur]
  | c :: cs, cur, result =>
    if c = '/' then
      if cur = [] then []
      else splitLoop cs [] (result ++ [String.mk cur])
    else splitLoop cs (cur ++ [c]) result

/-- The function `splitPath`. -/
def splitPath (path : String) : Path :=
  match path.data with
  | [] => []
  | c :: cs => if c = '/' then splitLoop cs [] [] else []

/-- The whitespace skipped by `operator>>`: space, `\t`, `\n`, `\v`, `\f`, `\r`. -/
def isspace (c : Char) : Bool :=
  c = ' ' || (9 ≤ c.toNat && c.toNat ≤ 13)

/-- The words that `ss >> word` extracts from a line, in order. -/
def wordsLoop : List Char → List Char → List String → List String
  | [], cur, acc => if cur = [] then acc else acc ++ [String.mk cur]
  | c :: cs, cur, acc =>
    if isspace c then
      if cur = [] then wordsLoop cs [] acc
      else wordsLoop cs [] (acc ++ [String.mk cur])
    else wordsLoop cs (cur ++ [c]) acc

/-- The argument loop of `processCmdLine`: split every word, stop at the first
one that is not a path. -/
def parseArgs : List String → Option (List Path)
  | [] => some []
  | arg :: rest =>
    if splitPath arg = [] then none
    else
      match parseArgs rest with
      | some args => some (splitPath arg :: args)
      | none => none

/-- The table `Main::commands`. -/
def commands (cmd : String) : Option (Node → List Path → Option (Bool × Node)) :=
  if cmd = "md" then some makeDirectoryNode
  else if cmd = "mf" then some makeFileNode
  else if cmd = "rm" then some removeNode
  else if cmd = "cp" then some copyNode
  else if cmd = "mv" then some moveNode
  else none

/-- The method `Main::processCmdLine`. -/
def processCmdLine (root : Node) (cmdLine : String) : Option (Bool × Node) :=
  match wordsLoop cmdLine.data [] [] with
  | [] => some (false, root)
  | cmd :: rest =>
    match commands cmd with
    | none => some (false, root)
    | some command =>
      match parseArgs rest with
      | none => some (false, root)
      | some args => command root args

/-- Processing command lines one after the other, as long as each one returns
(with either result); `none` once a command has undefined behaviour. -/
def processAll (root : Node) : List String → Option Node
  | [] => some root
  | line :: rest =>
    match processCmdLine root line with
    | some (_, root') => processAll root' rest
    | none => none

/-- The children are strictly increasing by name. -/
def Increasing (ns : List Node) : Prop :=
  List.Pairwise (fun a b : Node => strLess a.name_ b.name_ = true) ns

/-- A command result that, when defined, carries a root with the name and the
flag of the root before. -/
def KeepsRoot (root : Node) (res : Option (Bool × Node)) : Prop :=
  ∀ b r, res = some (b, r) → r.name_ = root.name_ ∧ r.isDirectory_ = root.isDirectory_

/-- Every path that names a node of `a` names a node of `b` with the same name
and the same directory flag. -/
def Keeps (a b : Node) : Prop :=
  ∀ q p x, a.lookup q = some (p, x) →
    ∃ p' y, b.lookup q = some (p', y) ∧ y.name_ = x.name_ ∧ y.isDirectory_ = x.isDirectory_


/-- The characters that `printf` reads for `%s` from `&s[0]`: those before the
first NUL character of the string. -/
def cstr (s : String) : String :=
  String.mk (s.data.takeWhile (fun c => c ≠ Char.ofNat 0))

namespace Node

mutual
/-- The method `Node::printTree`: the lines written, one per call of `printf`,
without the newline that ends them. -/
def printTree : Node → String → List String
  | ⟨name, isDirectory, nodes⟩, pfx =>
    if pfx ≠ "" then
      (cstr pfx ++ "_" ++ cstr name ++ (if isDirectory then "/" else "")) ::
        printTreeList nodes (pfx ++ " |")
    else "/" :: printTreeList nodes "|"
/-- The loop `for (const auto &subNode : nodes_) subNode.printTree(newPrefix)`. -/
def printTreeList : List Node → String → List String
  | [], _ => []
  | c :: cs, pfx => c.printTree pfx ++ printTreeList cs pfx
end

end Node

/-- The loop of `Main::run`: process the lines until one returns `false`; the
value of `success` and the tree at the end. -/
def runLoop (root : Node) : List String → Option (Bool × Node)
  | [] => some (true, root)
  | cmdLine :: rest =>
    match processCmdLine root cmdLine with
    | none => none
    | some (true, root') => runLoop root' rest
    | some (false, root') => some (false, root')

/-- The method `Main::run` on the lines of the batch file: the tree at the end
and the dump written by `root.printTree("")`, `none` when no dump is written. -/
def run (lines : List String) : Option (Node × Option (List String)) :=
  match runLoop initRoot lines with
  | none => none
  | some (true, root) => some (root, some (root.printTree ""))
  | some (false, root) => some (root, none)

/-- The call `path.find(ch, pos)` of `std::string`: the first position from
`pos` on that holds `ch`, `none` for `npos`. -/
def strFind (path : List Char) (ch : Char) (pos : Nat) : Option Nat :=
  if pos + ((path.drop pos).takeWhile (fun c => c ≠ ch)).length < path.length then
    some (pos + ((path.drop pos).takeWhile (fun c => c ≠ ch)).length)
  else none

/-- The loop `for (;;)` of `splitPath` with the positions `start` and `stop` of
the source: `path.substr(start, stop - start)` is
`(path.drop start).take (stop - start)`.  `fuel` bounds the number of
iterations, `none` when it runs out. -/
def splitPathIter (path : List Char) : Nat → Nat → Path → Option Path
  | 0, _, _ => none
  | fuel + 1, start, result =>
    match strFind path '/' start with
    | some stop =>
      if (path.drop start).take (stop - start) = [] then some []
      else
        splitPathIter path fuel (stop + 1)
          (result ++ [String.mk ((path.drop start).take (stop - start))])
    | none => some (result ++ [String.mk (path.drop start)])

/-- The function `splitPath` run with a bound on the iterations of its loop. -/
def splitPathBounded (fuel : Nat) (path : String) : Option Path :=
  match path.data with
  | [] => some []
  | c :: _ => if c = '/' then splitPathIter path.data fuel 1 [] else some []

/-- The characters of the path string `/s1/s2/.../sn` of the segments
`s1, ..., sn`. -/
def pathChars : Path → List Char
  | [] => []
  | s :: rest => '/' :: (s.data ++ pathChars rest)

/-- A command result that is sorted whenever it is defined. -/
def SortedRes (res : Option (Bool × Node)) : Prop :=
  ∀ b r, res = some (b, r) → r.sorted = true

/-- A command result that, when it is a failure, carries the tree `root`. -/
def FailSame (root : Node) (res : Option (Bool × Node)) : Prop :=
  ∀ r, res = some (false, r) → r = root

/-- Child lookup as the specification words it: the child with exactly the
given name, searched from the front. -/
def childNamed (nodes : List Node) (name : String) : Option Node :=
  nodes.find? (fun c => c.name_ = name)

/-- Path resolution as `find(begin, end)` performs it, in the words of the
specification: look up each segment in turn as a child; there is no result as
soon as a segment is missing or names a file (the final segment included); the
empty sequence resolves to the starting node. -/
def resolveDirs (this : Node) : List String → Option Node
  | [] => some this
  | seg :: rest =>
    match childNamed this.nodes_ seg with
    | none => none
    | some next => if next.isDirectory_ then resolveDirs next rest else none

/-- The prefix of the dump line of a node with `d + 1` ancestors: `|` followed
by `d` copies of ` |`. -/
def dumpPrefix : Nat → String
  | 0 => "|"
  | d + 1 => dumpPrefix d ++ " |"

mutual
/-- The dump in the words of the specification: the line of the node, then
the dumps of its children in their order.  A node without ancestors gives the
line `/`; a node with `d >= 1` ancestors gives `|`, `d - 1` copies of ` |`,
`_`, the name as `%s` prints it, and `/` for a directory. -/
def dumpLines : Nat → Node → List String
  | 0, ⟨_, _, nodes⟩ => "/" :: dumpLinesList 1 nodes
  | d + 1, ⟨name, isDirectory, nodes⟩ =>
    (dumpPrefix d ++ "_" ++ cstr name ++ (if isDirectory then "/" else "")) ::
      dumpLinesList (d + 2) nodes
/-- The dumps of the nodes of a forest, one after the other. -/
def dumpLinesList : Nat → List Node → List String
  | _, [] => []
  | d, c :: cs => dumpLines d c ++ dumpLinesList d cs
end

/-! ## The order on names -/

theorem lexLess_irrefl : ∀ a : List Char, lexLess a a = false
  | [] => rfl
  | c :: cs => by simp [lexLess, lexLess_irrefl cs]

theorem lexLess_trans : ∀ a b c : List Char,
    lexLess a b = true → lexLess b c = true → lexLess a c = true
  | [], [], _ => by simp [lexLess]
  | [], _ :: _, [] => by simp [lexLess]
  | [], _ :: _, _ :: _ => by simp [lexLess]
  | _ :: _, [], _ => by simp [lexLess]
  | _ :: _, _ :: _, [] => by simp [lexLess]
  | x :: xs, y :: ys, z :: zs => by
    have ih := lexLess_trans xs ys zs
    simp only [lexLess]
    intro h1 h2
    split_ifs at h1 h2 with h3 h4 h5 h6 h7 h8 <;> split_ifs <;> first | rfl | omega | exact ih h1 h2

theorem lexLess_total : ∀ a b : List Char,
    lexLess a b = false → a ≠ b → lexLess b a = true
  | [], [] => by simp
  | [], _ :: _ => by simp [lexLess]
  | _ :: _, [] => by simp [lexLess]
  | x :: xs, y :: ys => by
    have ih := lexLess_total xs ys
    simp only [lexLess]
    intro h1 h2
    split_ifs at h1 with h3 h4
    · simp [h4]
    · have hxy : x = y := by
        apply Char.ext
        apply UInt32.ext
        have : x.toNat = y.toNat := by omega
        simpa [Char.toNat, UInt32.toNat] using this
      subst hxy
      simp only [lt_self_iff_false, if_false]
      apply ih h1
      intro h
      exact h2 (by rw [h])

theorem strLess_irrefl (a : String) : strLess a a = false := lexLess_irrefl a.data

theorem strLess_trans {a b c : String} (h1 : strLess a b = true) (h2 : strLess b c = true) :
    strLess a c = true := lexLess_trans _ _ _ h1 h2

theorem strLess_total {a b : String} (h1 : strLess a b = false) (h2 : a ≠ b) :
    strLess b a = true := by
  apply lexLess_total _ _ h1
  intro h
  exact h2 (String.ext h)

theorem strLess_asymm {a b : String} (h : strLess a b = true) : strLess b a = false := by
  cases hba : strLess b a with
  | false => rfl
  | true => have := strLess_trans h hba; rw [strLess_irrefl] at this; cases this

theorem strLess_ne {a b : String} (h : strLess a b = true) : a ≠ b := by
  intro hab
  subst hab
  rw [strLess_irrefl] at h
  cases h

theorem increasing_iff : ∀ ns : List Node, Node.increasing ns = true ↔ Increasing ns
  | [] => by simp [Node.increasing, Increasing]
  | [a] => by simp [Node.increasing, Increasing]
  | a :: b :: rest => by
    have ih := increasing_iff (b :: rest)
    simp only [Node.increasing, Bool.and_eq_true, ih, Increasing, List.pairwise_cons]
    constructor
    · rintro ⟨hab, hb, hrest⟩
      refine ⟨?_, hb, hrest⟩
      intro c hc
      rcases List.mem_cons.1 hc with rfl | hc
      · exact hab
      · exact strLess_trans hab (hb c hc)
    · rintro ⟨ha, hb, hrest⟩
      exact ⟨ha b (List.mem_cons_self _ _), hb, hrest⟩

/-! ## The binary search -/

theorem lowerBoundLoop_congr {ns ns' : List Node} (name : String)
    (h : ns.map Node.name_ = ns'.map Node.name_) :
    ∀ fuel first len, lowerBoundLoop ns name fuel first len = lowerBoundLoop ns' name fuel first len
  | 0, _, _ => rfl
  | fuel + 1, first, len => by
    have hk : ∀ k : Nat, (ns[k]?).map Node.name_ = (ns'[k]?).map Node.name_ := by
      intro k
      rw [← List.getElem?_map, ← List.getElem?_map, h]
    simp only [lowerBoundLoop]
    split_ifs with h0
    · rfl
    · have hm := hk (first + len / 2)
      cases h1 : ns[first + len / 2]? with
      | none =>
        cases h2 : ns'[first + len / 2]? with
        | none => rfl
        | some b => rw [h1, h2] at hm; cases hm
      | some a =>
        cases h2 : ns'[first + len / 2]? with
        | none => rw [h1, h2] at hm; cases hm
        | some b =>
          rw [h1, h2] at hm
          simp only [Option.map_some', Option.some.injEq] at hm
          simp only [hm, lowerBoundLoop_congr name h fuel]

theorem lower_bound_congr {ns ns' : List Node} (name : String)
    (h : ns.map Node.name_ = ns'.map Node.name_) :
    lower_bound ns name = lower_bound ns' name := by
  have hl : ns.length = ns'.length := by
    have := congrArg List.length h
    simpa using this
  unfold lower_bound
  rw [lowerBoundLoop_congr name h, hl]

theorem lowerBoundLoop_spec {ns : List Node} (name : String) (hs : Increasing ns) :
    ∀ fuel first len, len ≤ fuel → first + len ≤ ns.length →
      (∀ i (h : i < ns.length), i < first → strLess ns[i].name_ name = true) →
      (∀ i (h : i < ns.length), first + len ≤ i → strLess ns[i].name_ name = false) →
      lowerBoundLoop ns name fuel first len ≤ ns.length ∧
      (∀ i (h : i < ns.length), i < lowerBoundLoop ns name fuel first len →
        strLess ns[i].name_ name = true) ∧
      (∀ i (h : i < ns.length), lowerBoundLoop ns name fuel first len ≤ i →
        strLess ns[i].name_ name = false)
  | 0, first, len => by
    intro hf hlen hlo hhi
    have : len = 0 := by omega
    subst this
    exact ⟨by simpa [lowerBoundLoop] using hlen, by simpa [lowerBoundLoop] using hlo,
      by simpa [lowerBoundLoop] using hhi⟩
  | fuel + 1, first, len => by
    intro hf hlen hlo hhi
    have hp := List.pairwise_iff_getElem.1 hs
    simp only [lowerBoundLoop]
    split_ifs with h0
    · subst h0
      exact ⟨by omega, hlo, by simpa using hhi⟩
    · have hmid : first + len / 2 < ns.length := by omega
      rw [List.getElem?_eq_getElem hmid]
      simp only
      split_ifs with hlt
      · apply lowerBoundLoop_spec name hs fuel _ _ (by omega) (by omega)
        · intro i h hi
          rcases Nat.lt_or_ge i (first + len / 2) with h1 | h1
          · exact strLess_trans (hp i _ h hmid h1) hlt
          · have : i = first + len / 2 := by omega
            subst this
            exact hlt
        · intro i h hi
          exact hhi i h (by omega)
      · apply lowerBoundLoop_spec name hs fuel _ _ (by omega) (by omega) hlo
        intro i h hi
        rcases Nat.eq_or_lt_of_le hi with h1 | h1
        · subst h1
          simpa using hlt
        · cases hc : strLess ns[i].name_ name with
          | false => rfl
          | true => exact absurd (strLess_trans (hp _ i hmid h h1) hc) hlt

theorem lower_bound_spec {ns : List Node} (name : String) (hs : Increasing ns) :
    lower_bound ns name ≤ ns.length ∧
    (∀ i (h : i < ns.length), i < lower_bound ns name → strLess ns[i].name_ name = true) ∧
    (∀ i (h : i < ns.length), lower_bound ns name ≤ i → strLess ns[i].name_ name = false) := by
  apply lowerBoundLoop_spec name hs ns.length 0 ns.length (le_refl _) (by omega)
  · intro i _ hi
    omega
  · intro i h hi
    omega

/-- On strictly increasing children the binary search returns the offset that
separates the names below `name` from the others. -/
theorem lower_bound_append {l1 l2 : List Node} (name : String)
    (hs : Increasing (l1 ++ l2))
    (h1 : ∀ c ∈ l1, strLess c.name_ name = true)
    (h2 : ∀ c ∈ l2, strLess c.name_ name = false) :
    lower_bound (l1 ++ l2) name = l1.length := by
  obtain ⟨hle, hlo, hhi⟩ := lower_bound_spec name hs
  rcases Nat.lt_trichotomy (lower_bound (l1 ++ l2) name) l1.length with h | h | h
  · have hlen : lower_bound (l1 ++ l2) name < (l1 ++ l2).length := by
      rw [List.length_append]; omega
    have ha := hhi _ hlen (le_refl _)
    rw [List.getElem_append_left h] at ha
    have hb := h1 _ (List.getElem_mem h)
    rw [ha] at hb
    cases hb
  · exact h
  · have hlen : l1.length < (l1 ++ l2).length := by omega
    have ha := hlo _ hlen h
    have hmem : (l1 ++ l2)[l1.length] ∈ l2 := by
      rw [List.getElem_append_right (le_refl _)]
      exact List.getElem_mem _
    rw [h2 _ hmem] at ha
    cases ha


/-! ## Lookup, insertion and removal in one node -/

theorem find_eq_some {this : Node} {name : String} {i : Nat} {c : Node}
    (h : this.find name = some (i, c)) :
    this.nodes_[i]? = some c ∧ c.name_ = name ∧ i = lower_bound this.nodes_ name := by
  unfold Node.find at h
  split at h
  · rename_i c' hc
    split_ifs at h with hn
    simp only [Option.some.injEq, Prod.mk.injEq] at h
    obtain ⟨rfl, rfl⟩ := h
    exact ⟨hc, hn, rfl⟩
  · cases h

theorem find_mem {this : Node} {name : String} {i : Nat} {c : Node}
    (h : this.find name = some (i, c)) : c ∈ this.nodes_ :=
  List.mem_iff_getElem?.2 ⟨i, (find_eq_some h).1⟩

theorem find_eq_none_of_not_mem {this : Node} {name : String}
    (h : ∀ c ∈ this.nodes_, c.name_ ≠ name) : this.find name = none := by
  cases hf : this.find name with
  | none => rfl
  | some r =>
    obtain ⟨i, c⟩ := r
    exact absurd (find_eq_some hf).2.1 (h c (find_mem hf))

/-- In strictly increasing children the binary search finds every child by
its name. -/
theorem find_of_append {this : Node} {l1 l2 : List Node} {c : Node}
    (hs : Increasing this.nodes_) (h : this.nodes_ = l1 ++ c :: l2) :
    this.find c.name_ = some (l1.length, c) := by
  have hlb : lower_bound this.nodes_ c.name_ = l1.length := by
    rw [h] at hs ⊢
    have hp := List.pairwise_append.1 hs
    apply lower_bound_append _ hs
    · intro x hx
      exact hp.2.2 x hx c (List.mem_cons_self _ _)
    · intro x hx
      rcases List.mem_cons.1 hx with rfl | hx
      · exact strLess_irrefl _
      · exact strLess_asymm ((List.pairwise_cons.1 hp.2.1).1 x hx)
  have hget : this.nodes_[l1.length]? = some c := by
    rw [h, List.getElem?_append_right (le_refl _)]
    simp
  unfold Node.find
  rw [hlb, hget]
  simp

theorem find_of_mem {this : Node} {c : Node}
    (hs : Increasing this.nodes_) (h : c ∈ this.nodes_) :
    ∃ i, this.find c.name_ = some (i, c) := by
  obtain ⟨l1, l2, hl⟩ := List.append_of_mem h
  exact ⟨l1.length, find_of_append hs hl⟩

theorem not_mem_of_find_eq_none {this : Node} {name : String}
    (hs : Increasing this.nodes_) (h : this.find name = none) :
    ∀ c ∈ this.nodes_, c.name_ ≠ name := by
  intro c hc hn
  obtain ⟨i, hi⟩ := find_of_mem hs hc
  rw [hn, h] at hi
  cases hi

/-- The binary search looks at names only: replacing a child by a node of
the same name does not change which offset a name is found at. -/
theorem find_set {this : Node} {i : Nat} {c c' : Node} (name : String)
    (hi : this.nodes_[i]? = some c) (hn : c'.name_ = c.name_) :
    (Node.mk this.name_ this.isDirectory_ (this.nodes_.set i c')).find name =
      match this.find name with
      | some (j, x) => if j = i then some (j, c') else some (j, x)
      | none => none := by
  have hlen : i < this.nodes_.length := (List.getElem?_eq_some.1 hi).1
  have hmap : (this.nodes_.set i c').map Node.name_ = this.nodes_.map Node.name_ := by
    rw [List.map_set, hn]
    apply List.ext_getElem? 
    intro k
    rw [List.getElem?_set]
    split_ifs with h1 h2
    · subst h1
      rw [List.getElem?_map, hi]
      rfl
    · simp at h2
      omega
    · rfl
  have hlb := lower_bound_congr name hmap
  unfold Node.find
  simp only [hlb]
  rw [List.getElem?_set]
  split_ifs with h1
  · rw [← h1, hi]
    simp only [hlen, if_true, hn]
    split_ifs <;> simp
  · cases hx : this.nodes_[lower_bound this.nodes_ name]? with
    | none => rfl
    | some x =>
      by_cases h2 : x.name_ = name <;> simp [h2, Ne.symm h1]

theorem add_of_find_eq_none {this : Node} {name : String} (isDirectory : Bool) (nodes : Nodes)
    (h : this.find name = none) :
    this.add name isDirectory nodes =
      (some (lower_bound this.nodes_ name),
        this.inserted (lower_bound this.nodes_ name) name isDirectory nodes) := by
  unfold Node.find at h
  unfold Node.add
  cases hc : this.nodes_[lower_bound this.nodes_ name]? with
  | none => rfl
  | some c =>
    rw [hc] at h
    simp only at h ⊢
    split_ifs at h with hn
    rw [if_neg (fun e => hn e.symm)]

theorem add_of_find_eq_some {this : Node} {name : String} (isDirectory : Bool) (nodes : Nodes)
    {r : Nat × Node} (h : this.find name = some r) :
    this.add name isDirectory nodes = (none, this) := by
  obtain ⟨i, c⟩ := r
  obtain ⟨h1, h2, h3⟩ := find_eq_some h
  unfold Node.add
  rw [← h3, h1]
  simp [h2]

/-- Inserting a name that is absent from strictly increasing children keeps
them strictly increasing. -/
theorem increasing_insert {ns : List Node} {name : String} (isDirectory : Bool) (nodes : Nodes)
    (hs : Increasing ns) (hn : ∀ c ∈ ns, c.name_ ≠ name) :
    Increasing (ns.take (lower_bound ns name) ++
      Node.mk name isDirectory nodes :: ns.drop (lower_bound ns name)) := by
  obtain ⟨_, hlo, hhi⟩ := lower_bound_spec name hs
  have hsplit : Increasing (ns.take (lower_bound ns name) ++ ns.drop (lower_bound ns name)) := by
    rw [List.take_append_drop]; exact hs
  have hp := List.pairwise_append.1 hsplit
  apply List.pairwise_append.2
  refine ⟨hp.1, List.pairwise_cons.2 ⟨?_, hp.2.1⟩, ?_⟩
  · intro x hx
    obtain ⟨k, hk, rfl⟩ := List.getElem_of_mem hx
    rw [List.getElem_drop]
    have hk' : lower_bound ns name + k < ns.length := by
      rw [List.length_drop] at hk; omega
    apply strLess_total (hhi _ hk' (by omega))
    exact hn _ (List.getElem_mem _)
  · intro a ha b hb
    have hlt : strLess a.name_ name = true := by
      obtain ⟨k, hk, rfl⟩ := List.getElem_of_mem ha
      rw [List.getElem_take]
      rw [List.length_take] at hk
      exact hlo k (by omega) (by omega)
    rcases List.mem_cons.1 hb with rfl | hb
    · exact hlt
    · exact hp.2.2 a ha b hb

theorem remove_of_find_eq_some {this : Node} {name : String} {i : Nat} {c : Node}
    (h : this.find name = some (i, c)) :
    this.remove name =
      ⟨this.name_, this.isDirectory_, this.nodes_.take i ++ this.nodes_.drop (i + 1)⟩ ∧
    this.nodes_ = this.nodes_.take i ++ c :: this.nodes_.drop (i + 1) := by
  obtain ⟨h1, h2, h3⟩ := find_eq_some h
  constructor
  · unfold Node.remove
    rw [← h3, h1]
    simp [h2]
  · obtain ⟨hlt, hc⟩ := List.getElem?_eq_some.1 h1
    rw [← hc, List.getElem_cons_drop, List.take_append_drop]

theorem remove_of_find_eq_none {this : Node} {name : String}
    (h : this.find name = none) : this.remove name = this := by
  unfold Node.find at h
  unfold Node.remove
  cases hc : this.nodes_[lower_bound this.nodes_ name]? with
  | none => rfl
  | some c =>
    rw [hc] at h
    simp only at h ⊢
    split_ifs at h with hn
    rw [if_neg hn]


/-! ## Pointers, path resolution and the sortedness of whole trees -/

theorem sortedList_iff : ∀ ns : List Node,
    Node.sortedList ns = true ↔ ∀ c ∈ ns, c.sorted = true
  | [] => by simp [Node.sortedList]
  | c :: cs => by simp [Node.sortedList, sortedList_iff cs]

theorem sorted_iff (this : Node) :
    this.sorted = true ↔ Increasing this.nodes_ ∧ ∀ c ∈ this.nodes_, c.sorted = true := by
  cases this with
  | mk n d ns => simp [Node.sorted, increasing_iff, sortedList_iff]

theorem sorted_increasing {this : Node} (h : this.sorted = true) : Increasing this.nodes_ :=
  ((sorted_iff this).1 h).1

theorem sorted_child {this c : Node} (h : this.sorted = true) (hc : c ∈ this.nodes_) :
    c.sorted = true :=
  ((sorted_iff this).1 h).2 c hc

theorem findPath_deref : ∀ (segs : List String) (this : Node) (p : Ptr) (d : Node),
    this.findPath segs = some (p, d) → this.deref p = some d
  | [], this, p, d => by
    intro h
    simp only [Node.findPath, Option.some.injEq, Prod.mk.injEq] at h
    obtain ⟨rfl, rfl⟩ := h
    rfl
  | seg :: rest, this, p, d => by
    intro h
    simp only [Node.findPath] at h
    cases hf : this.find seg with
    | none => rw [hf] at h; cases h
    | some r =>
      obtain ⟨i, next⟩ := r
      rw [hf] at h
      simp only at h
      split_ifs at h with hd
      cases hr : next.findPath rest with
      | none => rw [hr] at h; cases h
      | some r' =>
        obtain ⟨p', d'⟩ := r'
        rw [hr] at h
        simp only [Option.some.injEq, Prod.mk.injEq] at h
        obtain ⟨rfl, rfl⟩ := h
        simp only [Node.deref, (find_eq_some hf).1]
        exact findPath_deref rest next p' d' hr

theorem findPath_sorted : ∀ (segs : List String) (this : Node) (p : Ptr) (d : Node),
    this.sorted = true → this.findPath segs = some (p, d) → d.sorted = true
  | [], this, p, d => by
    intro hs h
    simp only [Node.findPath, Option.some.injEq, Prod.mk.injEq] at h
    obtain ⟨_, rfl⟩ := h
    exact hs
  | seg :: rest, this, p, d => by
    intro hs h
    simp only [Node.findPath] at h
    cases hf : this.find seg with
    | none => rw [hf] at h; cases h
    | some r =>
      obtain ⟨i, next⟩ := r
      rw [hf] at h
      simp only at h
      split_ifs at h with hd
      cases hr : next.findPath rest with
      | none => rw [hr] at h; cases h
      | some r' =>
        obtain ⟨p', d'⟩ := r'
        rw [hr] at h
        simp only [Option.some.injEq, Prod.mk.injEq] at h
        obtain ⟨_, rfl⟩ := h
        exact findPath_sorted rest next p' d' (sorted_child hs (find_mem hf)) hr

theorem update_isSome : ∀ (p : Ptr) (this d : Node) (f : Node → Node),
    this.deref p = some d → ∃ r, this.update p f = some r
  | [], this, d, f => fun _ => ⟨f this, rfl⟩
  | i :: p, this, d, f => by
    intro h
    simp only [Node.deref] at h
    cases hc : this.nodes_[i]? with
    | none => rw [hc] at h; cases h
    | some c =>
      rw [hc] at h
      obtain ⟨r, hr⟩ := update_isSome p c d f h
      refine ⟨⟨this.name_, this.isDirectory_, this.nodes_.set i r⟩, ?_⟩
      simp only [Node.update, hc, hr]

/-- A write through a pointer depends only on the image of the pointee. -/
theorem update_congr : ∀ (p : Ptr) (this d : Node) (f g : Node → Node),
    this.deref p = some d → f d = g d → this.update p f = this.update p g
  | [], this, d, f, g => by
    intro h hfg
    simp only [Node.deref, Option.some.injEq] at h
    subst h
    simp only [Node.update, hfg]
  | i :: p, this, d, f, g => by
    intro h hfg
    simp only [Node.deref] at h
    cases hc : this.nodes_[i]? with
    | none => rw [hc] at h; cases h
    | some c =>
      rw [hc] at h
      simp only [Node.update, hc, update_congr p c d f g h hfg]

theorem update_name_flag : ∀ (p : Ptr) (this r : Node) (f : Node → Node),
    (f this).name_ = this.name_ → (f this).isDirectory_ = this.isDirectory_ →
    this.update p f = some r → r.name_ = this.name_ ∧ r.isDirectory_ = this.isDirectory_
  | [], this, r, f => by
    intro h1 h2 h
    simp only [Node.update, Option.some.injEq] at h
    subst h
    exact ⟨h1, h2⟩
  | i :: p, this, r, f => by
    intro _ _ h
    simp only [Node.update] at h
    cases hc : this.nodes_[i]? with
    | none => rw [hc] at h; cases h
    | some c =>
      rw [hc] at h
      simp only at h
      cases hu : c.update p f with
      | none => rw [hu] at h; cases h
      | some c' =>
        rw [hu] at h
        simp only [Option.some.injEq] at h
        subst h
        exact ⟨rfl, rfl⟩

/-- After a write that keeps the name and the flag of the pointee, the path
that led to the pointee leads to its image. -/
theorem findPath_update (f : Node → Node)
    (hf : ∀ x, (f x).name_ = x.name_ ∧ (f x).isDirectory_ = x.isDirectory_) :
    ∀ (segs : List String) (this : Node) (p : Ptr) (d r : Node),
    this.findPath segs = some (p, d) → this.update p f = some r →
    r.findPath segs = some (p, f d)
  | [], this, p, d, r => by
    intro h hu
    simp only [Node.findPath, Option.some.injEq, Prod.mk.injEq] at h
    obtain ⟨rfl, rfl⟩ := h
    simp only [Node.update, Option.some.injEq] at hu
    subst hu
    rfl
  | seg :: rest, this, p, d, r => by
    intro h hu
    simp only [Node.findPath] at h
    cases hfd : this.find seg with
    | none => rw [hfd] at h; cases h
    | some x =>
      obtain ⟨i, next⟩ := x
      rw [hfd] at h
      simp only at h
      split_ifs at h with hd
      cases hr : next.findPath rest with
      | none => rw [hr] at h; cases h
      | some r' =>
        obtain ⟨p', d'⟩ := r'
        rw [hr] at h
        simp only [Option.some.injEq, Prod.mk.injEq] at h
        obtain ⟨rfl, rfl⟩ := h
        have hi := (find_eq_some hfd).1
        simp only [Node.update, hi] at hu
        cases hc : next.update p' f with
        | none => rw [hc] at hu; cases hu
        | some c' =>
          rw [hc] at hu
          simp only [Option.some.injEq] at hu
          subst hu
          have hnf := update_name_flag p' next c' f (hf next).1 (hf next).2 hc
          have hfs := find_set seg hi hnf.1
          rw [hfd] at hfs
          simp only [if_true] at hfs
          simp only [Node.findPath, hfs, hnf.2, hd, if_true,
            findPath_update f hf rest next p' d' c' hr hc]

theorem findPath_append : ∀ (a b : List String) (this : Node),
    this.findPath (a ++ b) =
      match this.findPath a with
      | some (p, d) =>
        match d.findPath b with
        | some (q, e) => some (p ++ q, e)
        | none => none
      | none => none
  | [], b, this => by
    simp only [List.nil_append, Node.findPath]
    cases this.findPath b with
    | none => rfl
    | some r => rfl
  | seg :: rest, b, this => by
    have hcons : (seg :: rest) ++ b = seg :: (rest ++ b) := rfl
    rw [hcons]
    simp only [Node.findPath]
    cases hfd : this.find seg with
    | none => rfl
    | some x =>
      obtain ⟨i, next⟩ := x
      simp only
      split_ifs with hd
      · rw [findPath_append rest b next]
        cases next.findPath rest with
        | none => rfl
        | some r =>
          obtain ⟨p, d⟩ := r
          simp only
          cases d.findPath b with
          | none => rfl
          | some r' => rfl
      · rfl

theorem findPath_singleton (this : Node) (seg : String) :
    this.findPath [seg] =
      match this.find seg with
      | some (i, n) => if n.isDirectory_ then some ([i], n) else none
      | none => none := by
  simp only [Node.findPath]
  cases this.find seg with
  | none => rfl
  | some x => rfl

/-- The addressing of a node by a path that ends in `last`. -/
theorem lookup_concat (this : Node) (q : Path) (last : String) :
    this.lookup (q ++ [last]) =
      match this.findPath q with
      | some (p, d) =>
        match d.find last with
        | some (i, n) => some (p ++ [i], n)
        | none => none
      | none => none := by
  simp only [Node.lookup, List.getLast?_concat, List.dropLast_concat]
  cases this.findPath q with
  | none => rfl
  | some r =>
    obtain ⟨p, d⟩ := r
    simp only
    cases d.find last with
    | none => rfl
    | some x => rfl

/-- A path that names a directory resolves to it with `find(begin, end)`. -/
theorem findPath_of_lookup {this : Node} {q : Path} {p : Ptr} {d : Node}
    (h : this.lookup q = some (p, d)) (hd : d.isDirectory_ = true) :
    this.findPath q = some (p, d) := by
  cases hl : q.getLast? with
  | none => simp only [Node.lookup, hl] at h; cases h
  | some last =>
    obtain ⟨q', rfl⟩ := List.getLast?_eq_some_iff.1 hl
    rw [lookup_concat] at h
    rw [findPath_append]
    simp only [findPath_singleton]
    cases h1 : this.findPath q' with
    | none => rw [h1] at h; cases h
    | some r =>
      obtain ⟨p1, d1⟩ := r
      rw [h1] at h
      simp only at h ⊢
      cases h2 : d1.find last with
      | none => rw [h2] at h; cases h
      | some r2 =>
        obtain ⟨i, n⟩ := r2
        rw [h2] at h
        simp only [Option.some.injEq, Prod.mk.injEq] at h
        obtain ⟨rfl, rfl⟩ := h
        simp [hd]


/-! ## Creation of a name that exists already -/

/-- C1 (the code at the failing input): after `mf /x` has created the file
`x`, a second `mf /x` finds the file, takes the branch `!dstNode->isDirectory()`
and returns `false`; the tree keeps its single file `x`. -/
theorem makeFileNode_twice_fails :
    processCmdLine initRoot "mf /x" = some (true, ⟨"", true, [⟨"x", false, []⟩]⟩) ∧
    processCmdLine ⟨"", true, [⟨"x", false, []⟩]⟩ "mf /x" =
      some (false, ⟨"", true, [⟨"x", false, []⟩]⟩) :=
  ⟨rfl, rfl⟩

/-- C2 (counterexample): after `md /a`, a second `md /a` does not return
failure: it returns `true`. -/
theorem makeDirectoryNode_twice_not_failure :
    processCmdLine initRoot "md /a" = some (true, ⟨"", true, [⟨"a", true, []⟩]⟩) ∧
    ¬ ∃ r, processCmdLine ⟨"", true, [⟨"a", true, []⟩]⟩ "md /a" = some (false, r) := by
  refine ⟨rfl, ?_⟩
  rintro ⟨r, h⟩
  have h2 : processCmdLine ⟨"", true, [⟨"a", true, []⟩]⟩ "md /a" =
      some (true, ⟨"", true, [⟨"a", true, []⟩]⟩) := rfl
  rw [h2] at h
  simp at h

/-- C2 (amended): in a tree with strictly sorted children, when the parent
segments of the path resolve to a directory that already contains a directory
with the final name, `md` returns success and leaves the tree unchanged. -/
theorem makeDirectoryNode_existing_directory (root : Node) (path : Path) (last : String)
    (p : Ptr) (d c : Node)
    (hs : root.sorted = true)
    (hlast : path.getLast? = some last)
    (hparent : root.findPath path.dropLast = some (p, d))
    (hc : c ∈ d.nodes_) (hname : c.name_ = last) (hdir : c.isDirectory_ = true) :
    makeDirectoryNode root [path] = some (true, root) := by
  obtain ⟨i, hi⟩ := find_of_mem (sorted_increasing (findPath_sorted _ _ _ _ hs hparent)) hc
  rw [hname] at hi
  simp [makeDirectoryNode, hlast, hparent, hi, hdir]

/-- C2 (witness): the tree after `md /a`, and the path `/a` again: the command
succeeds and the root still has the one child `a`. -/
theorem makeDirectoryNode_existing_directory_witness :
    makeDirectoryNode ⟨"", true, [⟨"a", true, []⟩]⟩ [["a"]] =
      some (true, ⟨"", true, [⟨"a", true, []⟩]⟩) :=
  makeDirectoryNode_existing_directory ⟨"", true, [⟨"a", true, []⟩]⟩ ["a"] "a" []
    ⟨"", true, [⟨"a", true, []⟩]⟩ ⟨"a", true, []⟩ (by decide) rfl rfl (by simp) rfl rfl

/-- C3 (the code at the failing input): after `md /a`, the command `mf /a` finds
the directory `a` and returns `true` (no failure), leaving the tree as it was;
after `mf /a`, the command `md /a` returns `false` and leaves the tree as it
was. -/
theorem makeFileNode_on_directory_succeeds :
    processCmdLine ⟨"", true, [⟨"a", true, []⟩]⟩ "mf /a" =
      some (true, ⟨"", true, [⟨"a", true, []⟩]⟩) ∧
    processCmdLine ⟨"", true, [⟨"a", false, []⟩]⟩ "md /a" =
      some (false, ⟨"", true, [⟨"a", false, []⟩]⟩) :=
  ⟨rfl, rfl⟩


/-! ## Creation of a new name -/

theorem add_name_flag (x : Node) (name : String) (isDirectory : Bool) (nodes : Nodes) :
    (x.add name isDirectory nodes).2.name_ = x.name_ ∧
    (x.add name isDirectory nodes).2.isDirectory_ = x.isDirectory_ := by
  unfold Node.add
  cases x.nodes_[lower_bound x.nodes_ name]? with
  | none => exact ⟨rfl, rfl⟩
  | some c =>
    simp only
    split_ifs
    · exact ⟨rfl, rfl⟩
    · exact ⟨rfl, rfl⟩

theorem remove_name_flag (x : Node) (name : String) :
    (x.remove name).name_ = x.name_ ∧ (x.remove name).isDirectory_ = x.isDirectory_ := by
  unfold Node.remove
  cases x.nodes_[lower_bound x.nodes_ name]? with
  | none => exact ⟨rfl, rfl⟩
  | some c =>
    simp only
    split_ifs
    · exact ⟨rfl, rfl⟩
    · exact ⟨rfl, rfl⟩

/-- The common shape of `md` and `mf` on a path whose parent resolves and whose
final name is new: one childless node is inserted among the children of the
parent, and the path names it afterwards. -/
theorem create_at (isDirectory : Bool) (root : Node) (path : Path) (last : String)
    (p : Ptr) (d : Node)
    (hlast : path.getLast? = some last)
    (hparent : root.findPath path.dropLast = some (p, d))
    (hnew : ∀ c ∈ d.nodes_, c.name_ ≠ last) :
    ∃ l1 l2 root', d.nodes_ = l1 ++ l2 ∧
      root.update p (fun x => (x.add last isDirectory []).2) = some root' ∧
      root.update p (fun _ => ⟨d.name_, d.isDirectory_,
        l1 ++ ⟨last, isDirectory, []⟩ :: l2⟩) = some root' ∧
      (root.sorted = true →
        root'.lookup path = some (p ++ [l1.length], ⟨last, isDirectory, []⟩)) := by
  have hfind := find_eq_none_of_not_mem hnew
  have hderef := findPath_deref _ _ _ _ hparent
  obtain ⟨root', hu⟩ := update_isSome p root d (fun x => (x.add last isDirectory []).2) hderef
  have hadd : (d.add last isDirectory []).2 = ⟨d.name_, d.isDirectory_,
      d.nodes_.take (lower_bound d.nodes_ last) ++
        ⟨last, isDirectory, []⟩ :: d.nodes_.drop (lower_bound d.nodes_ last)⟩ := by
    rw [add_of_find_eq_none isDirectory [] hfind]
    rfl
  refine ⟨d.nodes_.take (lower_bound d.nodes_ last), d.nodes_.drop (lower_bound d.nodes_ last),
    root', (List.take_append_drop _ _).symm, hu, ?_, ?_⟩
  · rw [← hu]
    exact (update_congr p root d _ _ hderef hadd).symm
  · intro hs
    have hds := sorted_increasing (findPath_sorted _ _ _ _ hs hparent)
    have hinc := increasing_insert isDirectory [] hds hnew
    have hfp := findPath_update (fun x => (x.add last isDirectory []).2)
      (fun x => add_name_flag x last isDirectory []) _ _ _ _ _ hparent hu
    obtain ⟨q, rfl⟩ := List.getLast?_eq_some_iff.1 hlast
    rw [List.dropLast_concat] at hfp
    rw [lookup_concat, hfp]
    simp only [hadd]
    have hf := @find_of_append (Node.mk d.name_ d.isDirectory_
      (d.nodes_.take (lower_bound d.nodes_ last) ++
        ⟨last, isDirectory, []⟩ :: d.nodes_.drop (lower_bound d.nodes_ last))) _ _ _ hinc rfl
    simp only at hf
    rw [hf]

/-- C4: for a non-empty path whose final name is not a child of the addressed
parent, `md` (`isDirectory = true`) and `mf` (`isDirectory = false`) return
success exactly when the segments before the last resolve from the root to a
directory.  Then the tree afterwards is the tree before in which the children
`l1 ++ l2` of that directory have become `l1 ++ new :: l2`, `new` being a
childless node of the requested kind, and (children being sorted) the path
names `new`.  When the parent does not resolve, the command returns failure
and the tree is unchanged. -/
theorem create_without_intermediate (isDirectory : Bool) (root : Node) (path : Path)
    (last : String)
    (hlast : path.getLast? = some last)
    (hnew : ∀ p d, root.findPath path.dropLast = some (p, d) →
      ∀ c ∈ d.nodes_, c.name_ ≠ last) :
    ((∃ root', (if isDirectory then makeDirectoryNode else makeFileNode) root [path] =
        some (true, root')) ↔
      ∃ r, root.findPath path.dropLast = some r) ∧
    (∀ p d, root.findPath path.dropLast = some (p, d) →
      ∃ l1 l2 root', d.nodes_ = l1 ++ l2 ∧
        (if isDirectory then makeDirectoryNode else makeFileNode) root [path] =
          some (true, root') ∧
        root.update p (fun _ => ⟨d.name_, d.isDirectory_,
          l1 ++ ⟨last, isDirectory, []⟩ :: l2⟩) = some root' ∧
        (root.sorted = true →
          root'.lookup path = some (p ++ [l1.length], ⟨last, isDirectory, []⟩))) ∧
    (root.findPath path.dropLast = none →
      (if isDirectory then makeDirectoryNode else makeFileNode) root [path] =
        some (false, root)) := by
  have hsome : ∀ p d, root.findPath path.dropLast = some (p, d) →
      ∃ l1 l2 root', d.nodes_ = l1 ++ l2 ∧
        (if isDirectory then makeDirectoryNode else makeFileNode) root [path] =
          some (true, root') ∧
        root.update p (fun _ => ⟨d.name_, d.isDirectory_,
          l1 ++ ⟨last, isDirectory, []⟩ :: l2⟩) = some root' ∧
        (root.sorted = true →
          root'.lookup path = some (p ++ [l1.length], ⟨last, isDirectory, []⟩)) := by
    intro p d hparent
    obtain ⟨l1, l2, root', h1, h2, h3, h4⟩ :=
      create_at isDirectory root path last p d hlast hparent (hnew p d hparent)
    refine ⟨l1, l2, root', h1, ?_, h3, h4⟩
    have hfind := find_eq_none_of_not_mem (hnew p d hparent)
    cases isDirectory with
    | true => simp [makeDirectoryNode, hlast, hparent, hfind, h2]
    | false => simp [makeFileNode, hlast, hparent, hfind, h2]
  have hnone : root.findPath path.dropLast = none →
      (if isDirectory then makeDirectoryNode else makeFileNode) root [path] =
        some (false, root) := by
    intro hparent
    cases isDirectory with
    | true => simp [makeDirectoryNode, hlast, hparent]
    | false => simp [makeFileNode, hlast, hparent]
  refine ⟨?_, hsome, hnone⟩
  constructor
  · rintro ⟨root', h⟩
    cases hparent : root.findPath path.dropLast with
    | none =>
      rw [hnone hparent] at h
      simp at h
    | some r => exact ⟨r, rfl⟩
  · rintro ⟨⟨p, d⟩, hparent⟩
    obtain ⟨_, _, root', _, h, _⟩ := hsome p d hparent
    exact ⟨root', h⟩

/-- C4 (witness): `md /Dir1/Dir2/NewDir` in a tree where `/Dir1/Dir2` exists. -/
theorem create_without_intermediate_witness :
    ∃ l1 l2 root', ([] : List Node) = l1 ++ l2 ∧
      makeDirectoryNode ⟨"", true, [⟨"Dir1", true, [⟨"Dir2", true, []⟩]⟩]⟩
        [["Dir1", "Dir2", "NewDir"]] = some (true, root') ∧
      Node.update ⟨"", true, [⟨"Dir1", true, [⟨"Dir2", true, []⟩]⟩]⟩ [0, 0]
        (fun _ => ⟨"Dir2", true, l1 ++ ⟨"NewDir", true, []⟩ :: l2⟩) = some root' ∧
      (Node.sorted ⟨"", true, [⟨"Dir1", true, [⟨"Dir2", true, []⟩]⟩]⟩ = true →
        root'.lookup ["Dir1", "Dir2", "NewDir"] =
          some ([0, 0] ++ [l1.length], ⟨"NewDir", true, []⟩)) :=
  (create_without_intermediate true ⟨"", true, [⟨"Dir1", true, [⟨"Dir2", true, []⟩]⟩]⟩
    ["Dir1", "Dir2", "NewDir"] "NewDir" rfl (by
      intro p d h
      have h2 : Node.findPath ⟨"", true, [⟨"Dir1", true, [⟨"Dir2", true, []⟩]⟩]⟩
          ["Dir1", "Dir2"] = some ([0, 0], ⟨"Dir2", true, []⟩) := rfl
      have h3 : some (p, d) = some ([0, 0], (⟨"Dir2", true, []⟩ : Node)) := h.symm.trans h2
      simp only [Option.some.injEq, Prod.mk.injEq] at h3
      rw [h3.2]
      simp)).2.1 [0, 0] ⟨"Dir2", true, []⟩ rfl

/-! ## Copying -/

theorem lookup_nil (this : Node) : this.lookup [] = none := rfl

theorem lookup_singleton (this : Node) (m : String) :
    this.lookup [m] =
      match this.find m with
      | some (i, n) => some ([i], n)
      | none => none := by
  have h := lookup_concat this [] m
  simp only [List.nil_append, Node.findPath] at h
  rw [h]

theorem lookup_cons_cons (this : Node) (m m' : String) (rest : List String) :
    this.lookup (m :: m' :: rest) =
      match this.find m with
      | some (i, next) =>
        if next.isDirectory_ then
          match next.lookup (m' :: rest) with
          | some (p, x) => some (i :: p, x)
          | none => none
        else none
      | none => none := by
  cases hl : (m' :: rest).getLast? with
  | none => simp at hl
  | some last =>
    obtain ⟨q, hq⟩ := List.getLast?_eq_some_iff.1 hl
    rw [hq]
    have hcons : m :: (q ++ [last]) = (m :: q) ++ [last] := rfl
    rw [hcons, lookup_concat]
    simp only [lookup_concat, Node.findPath]
    cases this.find m with
    | none => rfl
    | some x =>
      obtain ⟨i, next⟩ := x
      simp only
      split_ifs with hd
      · cases next.findPath q with
        | none => rfl
        | some r =>
          obtain ⟨p, d⟩ := r
          simp only
          cases d.find last with
          | none => rfl
          | some y => rfl
      · rfl

theorem keeps_of_find {d d' : Node}
    (hfind : ∀ m i c, d.find m = some (i, c) → ∃ j, d'.find m = some (j, c)) :
    Keeps d d' := by
  intro q p x h
  match q with
  | [] => rw [lookup_nil] at h; cases h
  | [m] =>
    rw [lookup_singleton] at h
    cases hf : d.find m with
    | none => rw [hf] at h; cases h
    | some r =>
      obtain ⟨i, c⟩ := r
      rw [hf] at h
      simp only [Option.some.injEq, Prod.mk.injEq] at h
      obtain ⟨_, rfl⟩ := h
      obtain ⟨j, hj⟩ := hfind m i c hf
      exact ⟨[j], c, by rw [lookup_singleton, hj], rfl, rfl⟩
  | m :: m' :: rest =>
    rw [lookup_cons_cons] at h
    cases hf : d.find m with
    | none => rw [hf] at h; cases h
    | some r =>
      obtain ⟨i, c⟩ := r
      rw [hf] at h
      simp only at h
      split_ifs at h with hd
      cases hl : c.lookup (m' :: rest) with
      | none => rw [hl] at h; cases h
      | some r' =>
        obtain ⟨p', x'⟩ := r'
        rw [hl] at h
        simp only [Option.some.injEq, Prod.mk.injEq] at h
        obtain ⟨_, rfl⟩ := h
        obtain ⟨j, hj⟩ := hfind m i c hf
        exact ⟨j :: p', x', by rw [lookup_cons_cons, hj]; simp [hd, hl], rfl, rfl⟩

theorem keeps_set {this c c' : Node} {i : Nat}
    (hi : this.nodes_[i]? = some c)
    (hn : c'.name_ = c.name_) (hd : c'.isDirectory_ = c.isDirectory_)
    (hk : Keeps c c') :
    Keeps this ⟨this.name_, this.isDirectory_, this.nodes_.set i c'⟩ := by
  intro q p x h
  match q with
  | [] => rw [lookup_nil] at h; cases h
  | [m] =>
    rw [lookup_singleton] at h
    cases hf : this.find m with
    | none => rw [hf] at h; cases h
    | some r =>
      obtain ⟨j, y⟩ := r
      rw [hf] at h
      simp only [Option.some.injEq, Prod.mk.injEq] at h
      obtain ⟨_, rfl⟩ := h
      have hfs := find_set m hi hn
      rw [hf] at hfs
      simp only at hfs
      by_cases hji : j = i
      · rw [if_pos hji] at hfs
        have hy : y = c := by
          have := (find_eq_some hf).1
          rw [hji, hi] at this
          exact (Option.some.inj this).symm
        subst hy
        exact ⟨[j], c', by rw [lookup_singleton, hfs], hn, hd⟩
      · rw [if_neg hji] at hfs
        exact ⟨[j], y, by rw [lookup_singleton, hfs], rfl, rfl⟩
  | m :: m' :: rest =>
    rw [lookup_cons_cons] at h
    cases hf : this.find m with
    | none => rw [hf] at h; cases h
    | some r =>
      obtain ⟨j, y⟩ := r
      rw [hf] at h
      simp only at h
      split_ifs at h with hdir
      cases hl : y.lookup (m' :: rest) with
      | none => rw [hl] at h; cases h
      | some r' =>
        obtain ⟨p', x'⟩ := r'
        rw [hl] at h
        simp only [Option.some.injEq, Prod.mk.injEq] at h
        obtain ⟨_, rfl⟩ := h
        have hfs := find_set m hi hn
        rw [hf] at hfs
        simp only at hfs
        by_cases hji : j = i
        · rw [if_pos hji] at hfs
          have hy : y = c := by
            have := (find_eq_some hf).1
            rw [hji, hi] at this
            exact (Option.some.inj this).symm
          subst hy
          obtain ⟨p2, y2, hl2, hn2, hd2⟩ := hk _ _ _ hl
          refine ⟨j :: p2, y2, ?_, hn2, hd2⟩
          rw [lookup_cons_cons, hfs]
          simp [hd, hdir, hl2]
        · rw [if_neg hji] at hfs
          refine ⟨j :: p', x', ?_, rfl, rfl⟩
          rw [lookup_cons_cons, hfs]
          simp [hdir, hl]

/-- A write through a pointer keeps every path when it keeps the name and the
flag of the pointee and every path below the pointee. -/
theorem keeps_update (f : Node → Node)
    (hf : ∀ x, (f x).name_ = x.name_ ∧ (f x).isDirectory_ = x.isDirectory_) :
    ∀ (p : Ptr) (this d r : Node), this.deref p = some d → this.update p f = some r →
      Keeps d (f d) → Keeps this r
  | [], this, d, r => by
    intro hd hu hk
    simp only [Node.deref, Option.some.injEq] at hd
    simp only [Node.update, Option.some.injEq] at hu
    subst hd
    subst hu
    exact hk
  | i :: p, this, d, r => by
    intro hd hu hk
    simp only [Node.deref] at hd
    simp only [Node.update] at hu
    cases hc : this.nodes_[i]? with
    | none => rw [hc] at hd; cases hd
    | some c =>
      rw [hc] at hd hu
      simp only at hd hu
      cases hcu : c.update p f with
      | none => rw [hcu] at hu; cases hu
      | some c' =>
        rw [hcu] at hu
        simp only [Option.some.injEq] at hu
        subst hu
        have hnf := update_name_flag p c c' f (hf c).1 (hf c).2 hcu
        exact keeps_set hc hnf.1 hnf.2 (keeps_update f hf p c d c' hd hcu hk)

/-- Inserting a new name among strictly sorted children of the directory that
`dpath` resolves to: the write succeeds, the new node is named by `dpath`
followed by the new name, and every path that named a node still does. -/
theorem add_at (root : Node) (dpath : Path) (pd : Ptr) (D : Node)
    (n : String) (isDirectory : Bool) (nodes : Nodes)
    (hs : root.sorted = true)
    (hD : root.findPath dpath = some (pd, D))
    (habsent : ∀ c ∈ D.nodes_, c.name_ ≠ n) :
    ∃ root', root.update pd (fun d => (d.add n isDirectory nodes).2) = some root' ∧
      (∃ p, root'.lookup (dpath ++ [n]) = some (p, ⟨n, isDirectory, nodes⟩)) ∧
      Keeps root root' := by
  have hfind := find_eq_none_of_not_mem habsent
  have hderef := findPath_deref _ _ _ _ hD
  have hds := sorted_increasing (findPath_sorted _ _ _ _ hs hD)
  have hinc := increasing_insert isDirectory nodes hds habsent
  obtain ⟨root', hu⟩ := update_isSome pd root D (fun d => (d.add n isDirectory nodes).2) hderef
  have hadd : (D.add n isDirectory nodes).2 = ⟨D.name_, D.isDirectory_,
      D.nodes_.take (lower_bound D.nodes_ n) ++
        ⟨n, isDirectory, nodes⟩ :: D.nodes_.drop (lower_bound D.nodes_ n)⟩ := by
    rw [add_of_find_eq_none isDirectory nodes hfind]
    rfl
  have hfp := findPath_update (fun d => (d.add n isDirectory nodes).2)
    (fun x => add_name_flag x n isDirectory nodes) _ _ _ _ _ hD hu
  refine ⟨root', hu, ?_, ?_⟩
  · refine ⟨pd ++ [(D.nodes_.take (lower_bound D.nodes_ n)).length], ?_⟩
    rw [lookup_concat, hfp]
    simp only [hadd]
    have hf := @find_of_append (Node.mk D.name_ D.isDirectory_
      (D.nodes_.take (lower_bound D.nodes_ n) ++
        ⟨n, isDirectory, nodes⟩ :: D.nodes_.drop (lower_bound D.nodes_ n))) _ _ _ hinc rfl
    simp only at hf
    rw [hf]
  · apply keeps_update _ (fun x => add_name_flag x n isDirectory nodes) pd root D root' hderef hu
    apply keeps_of_find
    intro m i c hmc
    rw [hadd]
    have hmem : c ∈ D.nodes_.take (lower_bound D.nodes_ n) ++
        ⟨n, isDirectory, nodes⟩ :: D.nodes_.drop (lower_bound D.nodes_ n) := by
      have hc := find_mem hmc
      rw [← List.take_append_drop (lower_bound D.nodes_ n) D.nodes_] at hc
      rcases List.mem_append.1 hc with h | h
      · exact List.mem_append_left _ h
      · exact List.mem_append_right _ (List.mem_cons_of_mem _ h)
    obtain ⟨j, hj⟩ := @find_of_mem (Node.mk D.name_ D.isDirectory_
      (D.nodes_.take (lower_bound D.nodes_ n) ++
        ⟨n, isDirectory, nodes⟩ :: D.nodes_.drop (lower_bound D.nodes_ n))) _ hinc hmem
    rw [(find_eq_some hmc).2.1] at hj
    exact ⟨j, hj⟩


theorem lookup_eq_some {this : Node} {path : Path} {p : Ptr} {x : Node}
    (h : this.lookup path = some (p, x)) :
    ∃ last pd d i, path.getLast? = some last ∧ this.findPath path.dropLast = some (pd, d) ∧
      d.find last = some (i, x) ∧ p = pd ++ [i] := by
  unfold Node.lookup at h
  cases hl : path.getLast? with
  | none => rw [hl] at h; cases h
  | some last =>
    rw [hl] at h
    simp only at h
    cases hd : this.findPath path.dropLast with
    | none => rw [hd] at h; cases h
    | some r =>
      obtain ⟨pd, d⟩ := r
      rw [hd] at h
      simp only at h
      cases hf : d.find last with
      | none => rw [hf] at h; cases h
      | some r' =>
        obtain ⟨i, y⟩ := r'
        rw [hf] at h
        simp only [Option.some.injEq, Prod.mk.injEq] at h
        obtain ⟨rfl, rfl⟩ := h
        exact ⟨last, pd, d, i, rfl, rfl, hf, rfl⟩

/-- Placement of a copy at a destination whose segments are all non-empty (the
root path `[""]` is left out).  In a tree with
strictly sorted children where the source path names a node `S`, let the
target directory `D` and the target name `n` be: the node named by the
destination path and the base name of the source, when the destination names
a directory; else the directory that the destination's parent segments
resolve to and the destination's last segment.  If `D` has no child named `n`,
`cp` returns success, and afterwards the path of `D` followed by `n` names a
node with the name `n`, the directory flag of `S` and the children `S` had,
the source path still names a node with the flag of `S`, and every path that
named a node before names a node of the same name and kind. -/
theorem copyNode_placement (root : Node) (src dst dpath : Path) (ps pd : Ptr) (S D : Node)
    (n : String)
    (hs : root.sorted = true)
    (_hdst : ∀ seg ∈ dst, seg ≠ "")
    (hsrc : root.lookup src = some (ps, S))
    (htarget :
      (root.lookup dst = some (pd, D) ∧ D.isDirectory_ = true ∧ dpath = dst ∧
        src.getLast? = some n) ∨
      (root.findPath dst.dropLast = some (pd, D) ∧ dpath = dst.dropLast ∧
        dst.getLast? = some n))
    (habsent : ∀ c ∈ D.nodes_, c.name_ ≠ n) :
    ∃ root', copyNode root [src, dst] = some (true, root') ∧
      (∃ p, root'.lookup (dpath ++ [n]) = some (p, ⟨n, S.isDirectory_, S.nodes_⟩)) ∧
      (∃ p S', root'.lookup src = some (p, S') ∧ S'.isDirectory_ = S.isDirectory_) ∧
      (∀ q p x, root.lookup q = some (p, x) →
        ∃ p' y, root'.lookup q = some (p', y) ∧ y.name_ = x.name_ ∧
          y.isDirectory_ = x.isDirectory_) := by
  obtain ⟨srcEnd, psd, srcDir, i, hsl, hsd, hsf, _⟩ := lookup_eq_some hsrc
  rcases htarget with ⟨hdst, hdir, rfl, hn⟩ | ⟨hdd, rfl, hdl⟩
  · obtain ⟨dstEnd, dd, dir, j, hdl, hdd, hdf, rfl⟩ := lookup_eq_some hdst
    have hD := findPath_of_lookup hdst hdir
    obtain ⟨root', hu, hnew, hk⟩ := add_at root dpath (dd ++ [j]) D n S.isDirectory_ S.nodes_
      hs hD habsent
    have hne : srcEnd = n := by
      rw [hsl] at hn
      exact Option.some.inj hn
    subst hne
    refine ⟨root', ?_, hnew, ?_, hk⟩
    · simp [copyNode, hsl, hsd, hsf, hdl, hdd, hdf, hdir, hu]
    · obtain ⟨p', y, h1, _, h2⟩ := hk _ _ _ hsrc
      exact ⟨p', y, h1, h2⟩
  · have hdf := find_eq_none_of_not_mem habsent
    obtain ⟨root', hu, hnew, hk⟩ := add_at root dst.dropLast pd D n S.isDirectory_ S.nodes_
      hs hdd habsent
    refine ⟨root', ?_, hnew, ?_, hk⟩
    · simp [copyNode, hsl, hsd, hsf, hdl, hdd, hdf, hu]
    · obtain ⟨p', y, h1, _, h2⟩ := hk _ _ _ hsrc
      exact ⟨p', y, h1, h2⟩

/-- Two copies in the tree with `/Dir1` and `/Dir2/Dir3/file.txt`: the command
`cp /Dir2/Dir3 /Dir1` makes `/Dir1/Dir3` a copy of `/Dir2/Dir3` with its file,
and `cp /Dir2/Dir3/file.txt /Dir1/newfile.txt` makes the file
`/Dir1/newfile.txt`; the sources are still there. -/
theorem copyNode_placement_witness :
    (∃ root', copyNode
        ⟨"", true, [⟨"Dir1", true, []⟩,
          ⟨"Dir2", true, [⟨"Dir3", true, [⟨"file.txt", false, []⟩]⟩]⟩]⟩
        [["Dir2", "Dir3"], ["Dir1"]] = some (true, root') ∧
      (∃ p, root'.lookup (["Dir1"] ++ ["Dir3"]) =
        some (p, ⟨"Dir3", true, [⟨"file.txt", false, []⟩]⟩)) ∧
      (∃ p S', root'.lookup ["Dir2", "Dir3"] = some (p, S') ∧ S'.isDirectory_ = true) ∧
      (∀ q p x, Node.lookup ⟨"", true, [⟨"Dir1", true, []⟩,
          ⟨"Dir2", true, [⟨"Dir3", true, [⟨"file.txt", false, []⟩]⟩]⟩]⟩ q = some (p, x) →
        ∃ p' y, root'.lookup q = some (p', y) ∧ y.name_ = x.name_ ∧
          y.isDirectory_ = x.isDirectory_)) ∧
    (∃ root', copyNode
        ⟨"", true, [⟨"Dir1", true, []⟩,
          ⟨"Dir2", true, [⟨"Dir3", true, [⟨"file.txt", false, []⟩]⟩]⟩]⟩
        [["Dir2", "Dir3", "file.txt"], ["Dir1", "newfile.txt"]] = some (true, root') ∧
      (∃ p, root'.lookup (["Dir1"] ++ ["newfile.txt"]) =
        some (p, ⟨"newfile.txt", false, []⟩)) ∧
      (∃ p S', root'.lookup ["Dir2", "Dir3", "file.txt"] = some (p, S') ∧
        S'.isDirectory_ = false) ∧
      (∀ q p x, Node.lookup ⟨"", true, [⟨"Dir1", true, []⟩,
          ⟨"Dir2", true, [⟨"Dir3", true, [⟨"file.txt", false, []⟩]⟩]⟩]⟩ q = some (p, x) →
        ∃ p' y, root'.lookup q = some (p', y) ∧ y.name_ = x.name_ ∧
          y.isDirectory_ = x.isDirectory_)) :=
  ⟨copyNode_placement
    ⟨"", true, [⟨"Dir1", true, []⟩,
      ⟨"Dir2", true, [⟨"Dir3", true, [⟨"file.txt", false, []⟩]⟩]⟩]⟩
    ["Dir2", "Dir3"] ["Dir1"] ["Dir1"] [1, 0] [0]
    ⟨"Dir3", true, [⟨"file.txt", false, []⟩]⟩ ⟨"Dir1", true, []⟩ "Dir3"
    (by decide) (by decide) rfl (Or.inl ⟨rfl, rfl, rfl, rfl⟩) (by simp),
   copyNode_placement
    ⟨"", true, [⟨"Dir1", true, []⟩,
      ⟨"Dir2", true, [⟨"Dir3", true, [⟨"file.txt", false, []⟩]⟩]⟩]⟩
    ["Dir2", "Dir3", "file.txt"] ["Dir1", "newfile.txt"] ["Dir1"] [1, 0, 0] [0]
    ⟨"file.txt", false, []⟩ ⟨"Dir1", true, []⟩ "newfile.txt"
    (by decide) (by decide) rfl (Or.inr ⟨rfl, rfl, rfl⟩) (by simp)⟩

/-- C5 (the code at the failing input): in the tree with `/d/a`, the command
`cp /d/a /` has the root as its destination, an existing directory without a
child `a`.  `splitPath` turns `/` into the one segment `""`, `copyNode`
resolves the empty parent to the root, finds no child with the empty name and
inserts the copy under that name: the command returns `true`, the root has a
child with the empty name, and the path `/a` names no node. -/
theorem copyNode_to_root_path :
    processAll initRoot ["md /d", "md /d/a"] =
      some ⟨"", true, [⟨"d", true, [⟨"a", true, []⟩]⟩]⟩ ∧
    processCmdLine ⟨"", true, [⟨"d", true, [⟨"a", true, []⟩]⟩]⟩ "cp /d/a /" =
      some (true, ⟨"", true, [⟨"", true, []⟩, ⟨"d", true, [⟨"a", true, []⟩]⟩]⟩) ∧
    Node.lookup ⟨"", true, [⟨"", true, []⟩, ⟨"d", true, [⟨"a", true, []⟩]⟩]⟩ ["a"] = none :=
  ⟨rfl, rfl, rfl⟩

/-! ## Moving -/

/-- C6 (the code at the failing input): after `md /a`, `md /b`, `md /c` the
command `mv /a /b` takes the pointer to `b` (slot 1 of the root's vector),
erases `a` (slot 0), which moves `c` into slot 1, and inserts `a` through the
stale pointer: the result is `/b` empty and `/c/a`. -/
theorem moveNode_into_later_sibling :
    processAll initRoot ["md /a", "md /b", "md /c"] =
      some ⟨"", true, [⟨"a", true, []⟩, ⟨"b", true, []⟩, ⟨"c", true, []⟩]⟩ ∧
    processCmdLine ⟨"", true, [⟨"a", true, []⟩, ⟨"b", true, []⟩, ⟨"c", true, []⟩]⟩
      "mv /a /b" =
      some (true, ⟨"", true, [⟨"b", true, []⟩, ⟨"c", true, [⟨"a", true, []⟩]⟩]⟩) :=
  ⟨rfl, rfl⟩

/-- C7 (the code at the failing input): in the tree with `/a/b`, `/b` and
`/b/f`, the command `mv /b /a` removes `/b` from the root, `add` then finds
the name `b` in `/a` and inserts nothing, and the command returns `true`:
`/b` and `/b/f` are gone. -/
theorem moveNode_collision_drops_source :
    processAll initRoot ["md /a", "md /a/b", "md /b", "mf /b/f"] =
      some ⟨"", true, [⟨"a", true, [⟨"b", true, []⟩]⟩, ⟨"b", true, [⟨"f", false, []⟩]⟩]⟩ ∧
    processCmdLine
      ⟨"", true, [⟨"a", true, [⟨"b", true, []⟩]⟩, ⟨"b", true, [⟨"f", false, []⟩]⟩]⟩
      "mv /b /a" =
      some (true, ⟨"", true, [⟨"a", true, [⟨"b", true, []⟩]⟩]⟩) :=
  ⟨rfl, rfl⟩

/-- C8 (the code at the failing inputs): `mv /y /x` onto an existing `/x/y`
returns `true` and takes the tree from 4 nodes to 3; `cp /a /b` onto an
existing `/b/a` returns `true` and leaves the 4 nodes of the tree as they were,
though the source has 1 node. -/
theorem node_count_on_collision :
    processCmdLine ⟨"", true, [⟨"x", true, [⟨"y", false, []⟩]⟩, ⟨"y", true, []⟩]⟩
      "mv /y /x" = some (true, ⟨"", true, [⟨"x", true, [⟨"y", false, []⟩]⟩]⟩) ∧
    Node.size ⟨"", true, [⟨"x", true, [⟨"y", false, []⟩]⟩, ⟨"y", true, []⟩]⟩ = 4 ∧
    Node.size ⟨"", true, [⟨"x", true, [⟨"y", false, []⟩]⟩]⟩ = 3 ∧
    processCmdLine ⟨"", true, [⟨"a", true, []⟩, ⟨"b", true, [⟨"a", true, []⟩]⟩]⟩
      "cp /a /b" = some (true, ⟨"", true, [⟨"a", true, []⟩, ⟨"b", true, [⟨"a", true, []⟩]⟩]⟩) ∧
    Node.size ⟨"", true, [⟨"a", true, []⟩, ⟨"b", true, [⟨"a", true, []⟩]⟩]⟩ = 4 ∧
    Node.size ⟨"a", true, []⟩ = 1 :=
  ⟨rfl, rfl, rfl, rfl, rfl, rfl⟩

/-! ## Removal -/

theorem length_one_of_getLast? {α : Type} {l : List α} {a : α}
    (h : l.getLast? = some a) (hlen : l.length = 1) : l = [a] := by
  obtain ⟨q, rfl⟩ := List.getLast?_eq_some_iff.1 h
  cases q with
  | nil => rfl
  | cons x xs => simp at hlen

/-- C9: in a tree with strictly sorted children and for a non-empty path other
than the root path `[""]`: when the segments before the last resolve to a
directory `d` that has a child `c` with the final name, `rm` returns success,
the tree afterwards is the tree before in which the children `l1 ++ c :: l2`
of `d` have become `l1 ++ l2`, and the path names no node any more; when the
parent does not resolve or has no child with the final name, `rm` returns
failure and the tree is unchanged. -/
theorem removeNode_spec (root : Node) (path : Path) (last : String)
    (hs : root.sorted = true)
    (hlast : path.getLast? = some last)
    (hroot : path ≠ [""]) :
    (∀ p d c, root.findPath path.dropLast = some (p, d) → c ∈ d.nodes_ → c.name_ = last →
      ∃ l1 l2 root', d.nodes_ = l1 ++ c :: l2 ∧
        removeNode root [path] = some (true, root') ∧
        root.update p (fun _ => ⟨d.name_, d.isDirectory_, l1 ++ l2⟩) = some root' ∧
        root'.lookup path = none) ∧
    ((∀ p d, root.findPath path.dropLast = some (p, d) → ∀ c ∈ d.nodes_, c.name_ ≠ last) →
      removeNode root [path] = some (false, root)) := by
  have hguard : ¬ (path.length = 1 ∧ last = "") := by
    rintro ⟨h1, h2⟩
    apply hroot
    rw [length_one_of_getLast? hlast h1, h2]
  constructor
  · intro p d c hparent hc hname
    have hds := sorted_increasing (findPath_sorted _ _ _ _ hs hparent)
    obtain ⟨i, hi⟩ := find_of_mem hds hc
    rw [hname] at hi
    have hderef := findPath_deref _ _ _ _ hparent
    obtain ⟨root', hu⟩ := update_isSome p root d (fun x => x.remove last) hderef
    obtain ⟨hrem, hnodes⟩ := remove_of_find_eq_some hi
    refine ⟨d.nodes_.take i, d.nodes_.drop (i + 1), root', hnodes, ?_, ?_, ?_⟩
    · simp [removeNode, hlast, hguard, hparent, hi, hu]
    · rw [← hu]
      exact (update_congr p root d _ _ hderef hrem).symm
    · have hfp := findPath_update (fun x => x.remove last)
        (fun x => remove_name_flag x last) _ _ _ _ _ hparent hu
      obtain ⟨q, rfl⟩ := List.getLast?_eq_some_iff.1 hlast
      rw [List.dropLast_concat] at hfp
      rw [lookup_concat, hfp]
      simp only [hrem]
      have hnone : (Node.mk d.name_ d.isDirectory_
          (d.nodes_.take i ++ d.nodes_.drop (i + 1))).find last = none := by
        apply find_eq_none_of_not_mem
        intro x hx
        simp only at hx
        rw [hnodes] at hds
        have hp := List.pairwise_append.1 hds
        rcases List.mem_append.1 hx with hx | hx
        · rw [← hname]
          exact strLess_ne (hp.2.2 x hx c (List.mem_cons_self _ _))
        · rw [← hname]
          exact (strLess_ne ((List.pairwise_cons.1 hp.2.1).1 x hx)).symm
      rw [hnone]
  · intro hnew
    cases hparent : root.findPath path.dropLast with
    | none => simp [removeNode, hlast, hguard, hparent]
    | some r =>
      obtain ⟨p, d⟩ := r
      have hfind := find_eq_none_of_not_mem (hnew p d hparent)
      simp [removeNode, hlast, hguard, hparent, hfind]

/-- C9 (witness): `rm /Dir2/Dir3` in a tree that has `/Dir2/Dir3/file.txt` and
`/Dir2/a`: the directory and the file below it go, `/Dir2/a` stays. -/
theorem removeNode_spec_witness :
    ∃ l1 l2 root', [Node.mk "Dir3" true [⟨"file.txt", false, []⟩], ⟨"a", false, []⟩] =
        l1 ++ ⟨"Dir3", true, [⟨"file.txt", false, []⟩]⟩ :: l2 ∧
      removeNode ⟨"", true, [⟨"Dir2", true,
          [⟨"Dir3", true, [⟨"file.txt", false, []⟩]⟩, ⟨"a", false, []⟩]⟩]⟩
        [["Dir2", "Dir3"]] = some (true, root') ∧
      Node.update ⟨"", true, [⟨"Dir2", true,
          [⟨"Dir3", true, [⟨"file.txt", false, []⟩]⟩, ⟨"a", false, []⟩]⟩]⟩ [0]
        (fun _ => ⟨"Dir2", true, l1 ++ l2⟩) = some root' ∧
      root'.lookup ["Dir2", "Dir3"] = none :=
  (removeNode_spec
    ⟨"", true, [⟨"Dir2", true, [⟨"Dir3", true, [⟨"file.txt", false, []⟩]⟩, ⟨"a", false, []⟩]⟩]⟩
    ["Dir2", "Dir3"] "Dir3" (by decide) rfl (by decide)).1 [0]
    ⟨"Dir2", true, [⟨"Dir3", true, [⟨"file.txt", false, []⟩]⟩, ⟨"a", false, []⟩]⟩
    ⟨"Dir3", true, [⟨"file.txt", false, []⟩]⟩ rfl (by simp) rfl

/-! ## The root -/

theorem keepsRoot_same (root : Node) (b : Bool) : KeepsRoot root (some (b, root)) := by
  intro b' r h
  simp only [Option.some.injEq, Prod.mk.injEq] at h
  rw [← h.2]
  exact ⟨rfl, rfl⟩

theorem keepsRoot_none (root : Node) : KeepsRoot root none := by
  intro b r h
  cases h

theorem keepsRoot_of_eq {root r : Node} (b : Bool)
    (h : r.name_ = root.name_ ∧ r.isDirectory_ = root.isDirectory_) :
    KeepsRoot root (some (b, r)) := by
  intro b' r' h'
  simp only [Option.some.injEq, Prod.mk.injEq] at h'
  rw [← h'.2]
  exact h

theorem keepsRoot_update (root : Node) (p : Ptr) (f : Node → Node)
    (hf : ∀ x, (f x).name_ = x.name_ ∧ (f x).isDirectory_ = x.isDirectory_) :
    KeepsRoot root
      (match root.update p f with
      | some root' => some (true, root')
      | none => none) := by
  cases hu : root.update p f with
  | none => exact keepsRoot_none root
  | some r => exact keepsRoot_of_eq true (update_name_flag p root r f (hf root).1 (hf root).2 hu)

theorem keepsRoot_makeDirectoryNode (root : Node) (args : List Path) :
    KeepsRoot root (makeDirectoryNode root args) := by
  unfold makeDirectoryNode
  repeat' first
    | exact keepsRoot_same _ _
    | exact keepsRoot_none _
    | exact keepsRoot_update _ _ _ (fun x => add_name_flag x _ _ _)
    | split

theorem keepsRoot_makeFileNode (root : Node) (args : List Path) :
    KeepsRoot root (makeFileNode root args) := by
  unfold makeFileNode
  repeat' first
    | exact keepsRoot_same _ _
    | exact keepsRoot_none _
    | exact keepsRoot_update _ _ _ (fun x => add_name_flag x _ _ _)
    | split

theorem keepsRoot_removeNode (root : Node) (args : List Path) :
    KeepsRoot root (removeNode root args) := by
  unfold removeNode
  repeat' first
    | exact keepsRoot_same _ _
    | exact keepsRoot_none _
    | exact keepsRoot_update _ _ _ (fun x => remove_name_flag x _)
    | split

theorem keepsRoot_copyNode (root : Node) (args : List Path) :
    KeepsRoot root (copyNode root args) := by
  unfold copyNode
  repeat' first
    | exact keepsRoot_same _ _
    | exact keepsRoot_none _
    | exact keepsRoot_update _ _ _ (fun x => add_name_flag x _ _ _)
    | split

theorem keepsRoot_trans {root root1 : Node} {res : Option (Bool × Node)}
    (h1 : root1.name_ = root.name_ ∧ root1.isDirectory_ = root.isDirectory_)
    (h : KeepsRoot root1 res) : KeepsRoot root res := by
  intro b r hr
  obtain ⟨h2, h3⟩ := h b r hr
  exact ⟨h2.trans h1.1, h3.trans h1.2⟩

theorem keepsRoot_move_tail (root : Node) (srcDir : Ptr) (name : String) (q : Option Ptr)
    (f : Node → Node)
    (hf : ∀ x, (f x).name_ = x.name_ ∧ (f x).isDirectory_ = x.isDirectory_) :
    KeepsRoot root
      (match root.update srcDir (fun d => d.remove name) with
      | none => none
      | some root1 =>
        match q with
        | none => some (true, root1)
        | some p =>
          match root1.update p f with
          | some root' => some (true, root')
          | none => none) := by
  cases hu : root.update srcDir (fun d => d.remove name) with
  | none => exact keepsRoot_none root
  | some root1 =>
    have h1 := update_name_flag srcDir root root1 _ (remove_name_flag root name).1
      (remove_name_flag root name).2 hu
    cases q with
    | none => exact keepsRoot_of_eq true h1
    | some p => exact keepsRoot_trans h1 (keepsRoot_update root1 p f hf)

theorem keepsRoot_moveNode (root : Node) (args : List Path) :
    KeepsRoot root (moveNode root args) := by
  unfold moveNode
  repeat' first
    | exact keepsRoot_same _ _
    | exact keepsRoot_none _
    | exact keepsRoot_move_tail _ _ _ _ _ (fun x => add_name_flag x _ _ _)
    | split

theorem keepsRoot_processCmdLine (root : Node) (cmdLine : String) :
    KeepsRoot root (processCmdLine root cmdLine) := by
  unfold processCmdLine
  split
  · exact keepsRoot_same _ _
  · rename_i cmd rest _
    unfold commands
    split_ifs
    · simp only
      split
      · exact keepsRoot_same _ _
      · exact keepsRoot_makeDirectoryNode _ _
    · simp only
      split
      · exact keepsRoot_same _ _
      · exact keepsRoot_makeFileNode _ _
    · simp only
      split
      · exact keepsRoot_same _ _
      · exact keepsRoot_removeNode _ _
    · simp only
      split
      · exact keepsRoot_same _ _
      · exact keepsRoot_copyNode _ _
    · simp only
      split
      · exact keepsRoot_same _ _
      · exact keepsRoot_moveNode _ _
    · exact keepsRoot_same _ _

theorem processAll_root : ∀ (lines : List String) (root r : Node),
    processAll root lines = some r →
    r.name_ = root.name_ ∧ r.isDirectory_ = root.isDirectory_
  | [], root, r => by
    intro h
    simp only [processAll, Option.some.injEq] at h
    rw [← h]
    exact ⟨rfl, rfl⟩
  | line :: rest, root, r => by
    intro h
    simp only [processAll] at h
    cases hp : processCmdLine root line with
    | none => rw [hp] at h; cases h
    | some x =>
      obtain ⟨b, root'⟩ := x
      rw [hp] at h
      have h1 := keepsRoot_processCmdLine root line b root' hp
      have h2 := processAll_root rest root' r h
      exact ⟨h2.1.trans h1.1, h2.2.trans h1.2⟩

/-- C10: in every tree reached from the initial root by processing command
lines, the command line `rm /` returns failure and leaves the tree unchanged,
and the root is still a directory with the empty name. -/
theorem root_protection (lines : List String) (root : Node)
    (h : processAll initRoot lines = some root) :
    processCmdLine root "rm /" = some (false, root) ∧
    root.name_ = "" ∧ root.isDirectory_ = true :=
  ⟨rfl, processAll_root lines initRoot root h⟩

/-- C10 (witness): the tree after `md /a`, `mf /a/f`, `rm /`, `cp /a /b`. -/
theorem root_protection_witness :
    processCmdLine
      ⟨"", true, [⟨"a", true, [⟨"f", false, []⟩]⟩, ⟨"b", true, [⟨"f", false, []⟩]⟩]⟩ "rm /" =
      some (false,
        ⟨"", true, [⟨"a", true, [⟨"f", false, []⟩]⟩, ⟨"b", true, [⟨"f", false, []⟩]⟩]⟩) ∧
    Node.name_
      ⟨"", true, [⟨"a", true, [⟨"f", false, []⟩]⟩, ⟨"b", true, [⟨"f", false, []⟩]⟩]⟩ = "" ∧
    Node.isDirectory_
      ⟨"", true, [⟨"a", true, [⟨"f", false, []⟩]⟩, ⟨"b", true, [⟨"f", false, []⟩]⟩]⟩ = true :=
  root_protection ["md /a", "mf /a/f", "rm /", "cp /a /b"] _ rfl

/-! ## Failures of copying and moving -/

theorem getLast?_isSome_of_findPath_dropLast {root : Node} {path : Path}
    (h : root.findPath path.dropLast = none) : ∃ last, path.getLast? = some last := by
  cases path with
  | nil => simp [Node.findPath] at h
  | cons a l => exact ⟨_, List.getLast?_eq_getLast _ (List.cons_ne_nil a l)⟩

/-- C11: for a non-empty source path, `cp` and `mv` return failure and leave
the tree unchanged when the parent segments of the source do not resolve to a
directory, or the directory they resolve to has no child with the base name of
the source, or the parent segments of the destination do not resolve to a
directory, or (children being strictly sorted) the final segment of the
destination names a file in the directory its parent segments resolve to. -/
theorem copy_move_failure (root : Node) (src dst : Path) (srcEnd : String)
    (hsrc : src.getLast? = some srcEnd)
    (hfail : root.findPath src.dropLast = none ∨
      (∃ p d, root.findPath src.dropLast = some (p, d) ∧ ∀ c ∈ d.nodes_, c.name_ ≠ srcEnd) ∨
      root.findPath dst.dropLast = none ∨
      (root.sorted = true ∧ ∃ dstEnd p d c, dst.getLast? = some dstEnd ∧
        root.findPath dst.dropLast = some (p, d) ∧ c ∈ d.nodes_ ∧ c.name_ = dstEnd ∧
        c.isDirectory_ = false)) :
    copyNode root [src, dst] = some (false, root) ∧
    moveNode root [src, dst] = some (false, root) := by
  rcases hfail with h | ⟨p, d, h, hnone⟩ | h | ⟨hs, dstEnd, p, d, c, hdl, hdd, hc, hname, hfile⟩
  · simp [copyNode, moveNode, hsrc, h]
  · have hf := find_eq_none_of_not_mem hnone
    simp [copyNode, moveNode, hsrc, h, hf]
  · obtain ⟨dstEnd, hdl⟩ := getLast?_isSome_of_findPath_dropLast h
    cases h1 : root.findPath src.dropLast with
    | none => simp [copyNode, moveNode, hsrc, h1]
    | some r =>
      obtain ⟨ps, sd⟩ := r
      cases h2 : sd.find srcEnd with
      | none => simp [copyNode, moveNode, hsrc, h1, h2]
      | some r2 =>
        obtain ⟨i, S⟩ := r2
        simp [copyNode, moveNode, hsrc, h1, h2, hdl, h]
  · obtain ⟨j, hj⟩ := find_of_mem (sorted_increasing (findPath_sorted _ _ _ _ hs hdd)) hc
    rw [hname] at hj
    cases h1 : root.findPath src.dropLast with
    | none => simp [copyNode, moveNode, hsrc, h1]
    | some r =>
      obtain ⟨ps, sd⟩ := r
      cases h2 : sd.find srcEnd with
      | none => simp [copyNode, moveNode, hsrc, h1, h2]
      | some r2 =>
        obtain ⟨i, S⟩ := r2
        simp [copyNode, moveNode, hsrc, h1, h2, hdl, hdd, hj, hfile]

/-- C11 (witness): in the tree with the directory `/Dir1` and the file
`/Dir1/f`, `cp /Dir1 /Dir1/f` and `mv /Dir1 /Dir1/f` fail: the destination names
an existing file. -/
theorem copy_move_failure_witness :
    copyNode ⟨"", true, [⟨"Dir1", true, [⟨"f", false, []⟩]⟩]⟩ [["Dir1"], ["Dir1", "f"]] =
      some (false, ⟨"", true, [⟨"Dir1", true, [⟨"f", false, []⟩]⟩]⟩) ∧
    moveNode ⟨"", true, [⟨"Dir1", true, [⟨"f", false, []⟩]⟩]⟩ [["Dir1"], ["Dir1", "f"]] =
      some (false, ⟨"", true, [⟨"Dir1", true, [⟨"f", false, []⟩]⟩]⟩) :=
  copy_move_failure ⟨"", true, [⟨"Dir1", true, [⟨"f", false, []⟩]⟩]⟩ ["Dir1"] ["Dir1", "f"]
    "Dir1" rfl
    (Or.inr (Or.inr (Or.inr ⟨by decide, "f", [0], ⟨"Dir1", true, [⟨"f", false, []⟩]⟩,
      ⟨"f", false, []⟩, rfl, rfl, by simp, rfl, rfl⟩)))

/-! ## The batch -/

theorem failSame_same (root : Node) (b : Bool) : FailSame root (some (b, root)) := by
  intro r h
  simp only [Option.some.injEq, Prod.mk.injEq] at h
  exact h.2.symm

theorem failSame_none (root : Node) : FailSame root none := by
  intro r h
  cases h

theorem failSame_true (root r : Node) : FailSame root (some (true, r)) := by
  intro r' h
  simp at h

theorem failSame_update (root : Node) (p : Ptr) (f : Node → Node) :
    FailSame root
      (match root.update p f with
      | some root' => some (true, root')
      | none => none) := by
  cases root.update p f with
  | none => exact failSame_none root
  | some r => exact failSame_true root r

theorem failSame_move_tail (root : Node) (srcDir : Ptr) (g : Node → Node) (q : Option Ptr)
    (f : Node → Node) :
    FailSame root
      (match root.update srcDir g with
      | none => none
      | some root1 =>
        match q with
        | none => some (true, root1)
        | some p =>
          match root1.update p f with
          | some root' => some (true, root')
          | none => none) := by
  cases root.update srcDir g with
  | none => exact failSame_none root
  | some root1 =>
    cases q with
    | none => exact failSame_true root root1
    | some p =>
      simp only
      cases root1.update p f with
      | none => exact failSame_none root
      | some r => exact failSame_true root r

theorem failSame_makeDirectoryNode (root : Node) (args : List Path) :
    FailSame root (makeDirectoryNode root args) := by
  unfold makeDirectoryNode
  repeat' first
    | exact failSame_same _ _
    | exact failSame_none _
    | exact failSame_update _ _ _
    | split

theorem failSame_makeFileNode (root : Node) (args : List Path) :
    FailSame root (makeFileNode root args) := by
  unfold makeFileNode
  repeat' first
    | exact failSame_same _ _
    | exact failSame_none _
    | exact failSame_update _ _ _
    | split

theorem failSame_removeNode (root : Node) (args : List Path) :
    FailSame root (removeNode root args) := by
  unfold removeNode
  repeat' first
    | exact failSame_same _ _
    | exact failSame_none _
    | exact failSame_update _ _ _
    | split

theorem failSame_copyNode (root : Node) (args : List Path) :
    FailSame root (copyNode root args) := by
  unfold copyNode
  repeat' first
    | exact failSame_same _ _
    | exact failSame_none _
    | exact failSame_update _ _ _
    | split

theorem failSame_moveNode (root : Node) (args : List Path) :
    FailSame root (moveNode root args) := by
  unfold moveNode
  repeat' first
    | exact failSame_same _ _
    | exact failSame_none _
    | exact failSame_move_tail _ _ _ _ _
    | split

theorem failSame_processCmdLine (root : Node) (cmdLine : String) :
    FailSame root (processCmdLine root cmdLine) := by
  unfold processCmdLine
  split
  · exact failSame_same _ _
  · rename_i cmd rest _
    unfold commands
    split_ifs
    · simp only
      split
      · exact failSame_same _ _
      · exact failSame_makeDirectoryNode _ _
    · simp only
      split
      · exact failSame_same _ _
      · exact failSame_makeFileNode _ _
    · simp only
      split
      · exact failSame_same _ _
      · exact failSame_removeNode _ _
    · simp only
      split
      · exact failSame_same _ _
      · exact failSame_copyNode _ _
    · simp only
      split
      · exact failSame_same _ _
      · exact failSame_moveNode _ _
    · exact failSame_same _ _

theorem runLoop_append_fail : ∀ (pre : List String) (root mid : Node) (line : String)
    (post : List String),
    runLoop root pre = some (true, mid) → processCmdLine mid line = some (false, mid) →
    runLoop root (pre ++ line :: post) = some (false, mid)
  | [], root, mid, line, post => by
    intro h hl
    simp only [runLoop, Option.some.injEq, Prod.mk.injEq, true_and] at h
    subst h
    simp only [List.nil_append, runLoop, hl]
  | l :: pre, root, mid, line, post => by
    intro h hl
    simp only [runLoop] at h
    simp only [List.cons_append, runLoop]
    cases hp : processCmdLine root l with
    | none => rw [hp] at h; cases h
    | some x =>
      obtain ⟨b, r⟩ := x
      rw [hp] at h
      cases b with
      | false => simp at h
      | true =>
        simp only at h ⊢
        exact runLoop_append_fail pre r mid line post h hl

theorem runLoop_processAll : ∀ (lines : List String) (root final : Node) (b : Bool),
    runLoop root lines = some (b, final) → b = true → processAll root lines = some final
  | [], root, final, b => by
    intro h _
    simp only [runLoop, Option.some.injEq, Prod.mk.injEq] at h
    simp only [processAll, h.2]
  | l :: rest, root, final, b => by
    intro h hb
    simp only [runLoop] at h
    simp only [processAll]
    cases hp : processCmdLine root l with
    | none => rw [hp] at h; cases h
    | some x =>
      obtain ⟨b', r⟩ := x
      rw [hp] at h
      cases b' with
      | false =>
        simp only [Option.some.injEq, Prod.mk.injEq] at h
        rw [← h.1] at hb
        cases hb
      | true =>
        simp only at h ⊢
        exact runLoop_processAll rest r final b h hb

/-- C12: with `run` as the loop of `processCmdLine` over the lines: when the
lines `pre` all succeed and lead from the empty root to the tree `mid`, and the
next line fails, then that line leaves `mid` as it was, `pre` has been applied
in order, and the run of `pre`, the failing line and any further lines ends
with the tree `mid` and no dump.  Every command line that returns failure
leaves the tree as it was.  When all lines succeed, they are applied in order
and the dump of the final tree is written. -/
theorem batch_fail_fast (pre : List String) (line : String) (post : List String)
    (mid r : Node)
    (hpre : runLoop initRoot pre = some (true, mid))
    (hline : processCmdLine mid line = some (false, r)) :
    r = mid ∧ processAll initRoot pre = some mid ∧
    run (pre ++ line :: post) = some (mid, none) ∧
    (∀ (root : Node) (cmdLine : String) (root' : Node),
      processCmdLine root cmdLine = some (false, root') → root' = root) ∧
    (∀ (lines : List String) (final : Node), runLoop initRoot lines = some (true, final) →
      processAll initRoot lines = some final ∧
      run lines = some (final, some (final.printTree ""))) := by
  have hr : r = mid := failSame_processCmdLine mid line r hline
  subst hr
  refine ⟨rfl, runLoop_processAll pre initRoot r true hpre rfl, ?_,
    fun root cmdLine root' h => failSame_processCmdLine root cmdLine root' h, ?_⟩
  · simp only [run, runLoop_append_fail pre initRoot r line post hpre hline]
  · intro lines final h
    refine ⟨runLoop_processAll lines initRoot final true h rfl, ?_⟩
    simp only [run, h]

/-- C12 (witness): the batch `md /a`, `mf /a/f`, `mf /a/f`, `md /b`: the third
line fails, the tree keeps `/a/f` only and nothing is dumped. -/
theorem batch_fail_fast_witness :
    run (["md /a", "mf /a/f"] ++ "mf /a/f" :: ["md /b"]) =
      some (⟨"", true, [⟨"a", true, [⟨"f", false, []⟩]⟩]⟩, none) :=
  (batch_fail_fast ["md /a", "mf /a/f"] "mf /a/f" ["md /b"]
    ⟨"", true, [⟨"a", true, [⟨"f", false, []⟩]⟩]⟩
    ⟨"", true, [⟨"a", true, [⟨"f", false, []⟩]⟩]⟩ rfl rfl).2.2.1

/-! ## Path parsing -/

theorem splitLoop_segment : ∀ (seg rest cur : List Char) (result : Path),
    (∀ c ∈ seg, c ≠ '/') → splitLoop (seg ++ rest) cur result = splitLoop rest (cur ++ seg) result
  | [], rest, cur, result => by
    intro _
    simp
  | c :: cs, rest, cur, result => by
    intro h
    have hc : c ≠ '/' := h c (List.mem_cons_self _ _)
    have ih := splitLoop_segment cs rest (cur ++ [c]) result
      (fun x hx => h x (List.mem_cons_of_mem _ hx))
    have hcons : (c :: cs) ++ rest = c :: (cs ++ rest) := rfl
    rw [hcons]
    simp only [splitLoop, hc, if_false]
    rw [ih, List.append_assoc, List.singleton_append]

theorem data_ne_nil {s : String} (h : s ≠ "") : s.data ≠ [] := by
  intro hd
  apply h
  exact String.ext hd

theorem splitLoop_pathChars : ∀ (segs : Path) (s : String) (result : Path),
    (∀ x ∈ s :: segs, x ≠ "" ∧ ∀ c ∈ x.data, c ≠ '/') →
    splitLoop (s.data ++ pathChars segs) [] result = result ++ s :: segs
  | [], s, result => by
    intro h
    have hs := (h s (List.mem_cons_self _ _)).2
    rw [splitLoop_segment s.data (pathChars []) [] result hs]
    simp [pathChars, splitLoop]
  | t :: rest, s, result => by
    intro h
    have hs := h s (List.mem_cons_self _ _)
    have ih := splitLoop_pathChars rest t (result ++ [s])
      (fun x hx => h x (List.mem_cons_of_mem _ hx))
    rw [splitLoop_segment s.data (pathChars (t :: rest)) [] result hs.2]
    simp only [pathChars, splitLoop, List.nil_append, if_true, data_ne_nil hs.1, if_false]
    rw [ih]
    simp

theorem span_slash : ∀ l : List Char, ∃ seg rest, l = seg ++ rest ∧
    (∀ c ∈ seg, c ≠ '/') ∧ l.takeWhile (fun c => c ≠ '/') = seg ∧
    (rest = [] ∨ ∃ r, rest = '/' :: r)
  | [] => ⟨[], [], rfl, by simp, rfl, Or.inl rfl⟩
  | c :: l => by
    by_cases hc : c = '/'
    · subst hc
      exact ⟨[], '/' :: l, rfl, by simp, by simp, Or.inr ⟨l, rfl⟩⟩
    · obtain ⟨seg, rest, h1, h2, h3, h4⟩ := span_slash l
      refine ⟨c :: seg, rest, by rw [h1]; rfl, ?_, ?_, h4⟩
      · intro x hx
        rcases List.mem_cons.1 hx with rfl | hx
        · exact hc
        · exact h2 x hx
      · rw [← h3]
        simp [List.takeWhile, hc]

/-- The loop of `splitPath` written with positions returns what `splitLoop`
returns, as soon as the fuel exceeds the characters left. -/
theorem splitPathIter_eq (path : List Char) : ∀ (fuel start : Nat) (result : Path),
    start ≤ path.length → path.length - start < fuel →
    splitPathIter path fuel start result = some (splitLoop (path.drop start) [] result)
  | 0, start, result => by
    intro _ h
    omega
  | fuel + 1, start, result => by
    intro hstart hfuel
    obtain ⟨seg, rest, h1, h2, h3, h4⟩ := span_slash (path.drop start)
    have hlen : seg.length + rest.length = path.length - start := by
      have := congrArg List.length h1
      simp only [List.length_drop, List.length_append] at this
      omega
    simp only [splitPathIter, strFind, h3]
    rcases h4 with rfl | ⟨r, rfl⟩
    · have hnot : ¬ (start + seg.length < path.length) := by
        simp only [List.length_nil] at hlen
        omega
      rw [if_neg hnot]
      rw [List.append_nil] at h1
      simp only [h1]
      have := splitLoop_segment seg [] [] result h2
      simp only [List.append_nil, List.nil_append] at this
      rw [this]
      simp [splitLoop]
    · have hlt : start + seg.length < path.length := by
        simp only [List.length_cons] at hlen
        omega
      rw [if_pos hlt]
      have htake : (path.drop start).take (start + seg.length - start) = seg := by
        rw [h1, Nat.add_sub_cancel_left]
        simp
      have hdrop : path.drop (start + seg.length + 1) = r := by
        have : path.drop (start + seg.length + 1) = (path.drop start).drop (seg.length + 1) := by
          rw [List.drop_drop, Nat.add_assoc]
        rw [this, h1]
        have h5 : seg ++ '/' :: r = (seg ++ ['/']) ++ r := by simp
        rw [h5]
        have h6 : seg.length + 1 = (seg ++ ['/']).length := by simp
        rw [h6, List.drop_left]
      simp only [htake]
      rw [h1, splitLoop_segment seg ('/' :: r) [] result h2]
      simp only [List.nil_append, splitLoop, if_true]
      by_cases hseg : seg = []
      · simp [hseg]
      · simp only [hseg, if_false]
        rw [splitPathIter_eq path fuel (start + seg.length + 1) _ (by omega) (by omega), hdrop]

theorem splitPathBounded_eq (path : String) (fuel : Nat) (h : path.length ≤ fuel) :
    splitPathBounded fuel path = some (splitPath path) := by
  unfold splitPathBounded splitPath
  have hl : path.length = path.data.length := rfl
  cases hd : path.data with
  | nil => rfl
  | cons c cs =>
    simp only
    split_ifs with hc
    · rw [hd] at hl
      simp only [List.length_cons] at hl
      have := splitPathIter_eq (c :: cs) fuel 1 [] (by simp) (by simp; omega)
      simpa using this
    · rfl

/-- C13: for a non-empty list of segments, each non-empty and without `/`,
`splitPath` applied to the string `/s1/s2/.../sn` returns the list; and the
loop of `splitPath` comes to its end on every string, within as many
iterations as the string has characters, with the value `splitPath` has. -/
theorem splitPath_wellformed (segs : Path)
    (hne : segs ≠ [])
    (hwf : ∀ s ∈ segs, s ≠ "" ∧ ∀ c ∈ s.data, c ≠ '/') :
    splitPath (String.mk (pathChars segs)) = segs ∧
    ∀ (path : String) (fuel : Nat), path.length ≤ fuel →
      splitPathBounded fuel path = some (splitPath path) := by
  refine ⟨?_, splitPathBounded_eq⟩
  cases segs with
  | nil => exact absurd rfl hne
  | cons s rest =>
    have := splitLoop_pathChars rest s [] hwf
    simpa [splitPath, pathChars] using this

/-- C13 (witness): the string `/a/b/c` gives the segments `a`, `b`, `c`. -/
theorem splitPath_wellformed_witness :
    splitPath (String.mk (pathChars ["a", "b", "c"])) = ["a", "b", "c"] ∧
    String.mk (pathChars ["a", "b", "c"]) = "/a/b/c" :=
  ⟨(splitPath_wellformed ["a", "b", "c"] (by simp) (by decide)).1, by decide⟩

theorem splitLoop_doubled : ∀ (pre post cur : List Char) (result : Path),
    splitLoop (pre ++ '/' :: '/' :: post) cur result = []
  | [], post, cur, result => by
    simp only [List.nil_append, splitLoop, if_true]
    split_ifs <;> rfl
  | c :: pre, post, cur, result => by
    have hcons : (c :: pre) ++ '/' :: '/' :: post = c :: (pre ++ '/' :: '/' :: post) := rfl
    rw [hcons]
    simp only [splitLoop]
    split_ifs
    · rfl
    · exact splitLoop_doubled pre post [] _
    · exact splitLoop_doubled pre post _ result

/-- The strings that `splitPath` does reject: the empty string, a string that
does not start with `/`, and a string with two `/` in a row. -/
theorem splitPath_rejects (path : String)
    (h : path.data = [] ∨ (∃ c cs, path.data = c :: cs ∧ c ≠ '/') ∨
      ∃ pre post, path.data = '/' :: (pre ++ '/' :: '/' :: post)) :
    splitPath path = [] := by
  unfold splitPath
  rcases h with h | ⟨c, cs, h, hc⟩ | ⟨pre, post, h⟩
  · rw [h]
  · rw [h]
    simp [hc]
  · rw [h]
    simp [splitLoop_doubled]

/-- C14 (the code at the failing input): `splitPath` turns `/a/` into the two
segments `a` and the empty string, not into the empty sequence, and the line
`md /a/` is carried out: it creates a directory with the empty name in `/a`.
The strings `""`, `a/b` and `/a//b` give the empty sequence. -/
theorem splitPath_trailing_slash :
    splitPath "/a/" = ["a", ""] ∧
    processCmdLine ⟨"", true, [⟨"a", true, []⟩]⟩ "md /a/" =
      some (true, ⟨"", true, [⟨"a", true, [⟨"", true, []⟩]⟩]⟩) ∧
    splitPath "" = [] ∧ splitPath "a/b" = [] ∧ splitPath "/a//b" = [] :=
  ⟨rfl, rfl, rfl, rfl, rfl⟩

/-! ## Invariants of the tree -/

theorem map_name_set {ns : List Node} {i : Nat} {c c' : Node}
    (hi : ns[i]? = some c) (hn : c'.name_ = c.name_) :
    (ns.set i c').map Node.name_ = ns.map Node.name_ := by
  rw [List.map_set, hn]
  apply List.ext_getElem?
  intro k
  rw [List.getElem?_set]
  split_ifs with h1 h2
  · subst h1
    rw [List.getElem?_map, hi]
    rfl
  · have hlen : i < ns.length := (List.getElem?_eq_some.1 hi).1
    simp at h2
    omega
  · rfl

theorem increasing_iff_map (ns : List Node) :
    Increasing ns ↔ List.Pairwise (fun a b : String => strLess a b = true) (ns.map Node.name_) := by
  unfold Increasing
  rw [List.pairwise_map]

theorem increasing_set {ns : List Node} {i : Nat} {c c' : Node}
    (hs : Increasing ns) (hi : ns[i]? = some c) (hn : c'.name_ = c.name_) :
    Increasing (ns.set i c') := by
  rw [increasing_iff_map, map_name_set hi hn]
  exact (increasing_iff_map ns).1 hs

theorem sorted_mk (name : String) (isDirectory : Bool) (nodes : List Node) :
    (Node.mk name isDirectory nodes).sorted = true ↔
      Increasing nodes ∧ ∀ c ∈ nodes, c.sorted = true :=
  sorted_iff _

theorem sorted_mk_of {S : Node} (name : String) (h : S.sorted = true) :
    (Node.mk name S.isDirectory_ S.nodes_).sorted = true :=
  (sorted_mk _ _ _).2 ((sorted_iff S).1 h)

theorem add_sorted {x : Node} (name : String) (isDirectory : Bool) (nodes : Nodes)
    (hx : x.sorted = true) (hnew : (Node.mk name isDirectory nodes).sorted = true) :
    (x.add name isDirectory nodes).2.sorted = true := by
  cases hf : x.find name with
  | some r => rw [add_of_find_eq_some isDirectory nodes hf]; exact hx
  | none =>
    rw [add_of_find_eq_none isDirectory nodes hf]
    have hinc := sorted_increasing hx
    have habs := not_mem_of_find_eq_none hinc hf
    simp only [Node.inserted]
    rw [sorted_mk]
    refine ⟨increasing_insert isDirectory nodes hinc habs, ?_⟩
    intro c hc
    rcases List.mem_append.1 hc with h | h
    · exact sorted_child hx (List.mem_of_mem_take h)
    · rcases List.mem_cons.1 h with rfl | h
      · exact hnew
      · exact sorted_child hx (List.mem_of_mem_drop h)

theorem remove_sorted {x : Node} (name : String) (hx : x.sorted = true) :
    (x.remove name).sorted = true := by
  cases hf : x.find name with
  | none => rw [remove_of_find_eq_none hf]; exact hx
  | some r =>
    obtain ⟨i, c⟩ := r
    obtain ⟨hrem, hnodes⟩ := remove_of_find_eq_some hf
    rw [hrem, sorted_mk]
    have hinc := sorted_increasing hx
    have hsub : List.Sublist (x.nodes_.take i ++ x.nodes_.drop (i + 1)) x.nodes_ := by
      conv => rhs; rw [hnodes]
      exact List.Sublist.append (List.Sublist.refl _) (List.sublist_cons_self _ _)
    refine ⟨List.Pairwise.sublist hsub hinc, ?_⟩
    intro y hy
    exact sorted_child hx (hsub.subset hy)

/-- A write through a pointer keeps the tree sorted when the image of every
sorted node is sorted and has the name of the node. -/
theorem sorted_update (f : Node → Node)
    (hf : ∀ x, x.sorted = true → (f x).sorted = true)
    (hn : ∀ x, (f x).name_ = x.name_ ∧ (f x).isDirectory_ = x.isDirectory_) :
    ∀ (p : Ptr) (this r : Node), this.sorted = true → this.update p f = some r →
      r.sorted = true
  | [], this, r => by
    intro hs hu
    simp only [Node.update, Option.some.injEq] at hu
    subst hu
    exact hf this hs
  | i :: p, this, r => by
    intro hs hu
    simp only [Node.update] at hu
    cases hc : this.nodes_[i]? with
    | none => rw [hc] at hu; cases hu
    | some c =>
      rw [hc] at hu
      simp only at hu
      cases hcu : c.update p f with
      | none => rw [hcu] at hu; cases hu
      | some c' =>
        rw [hcu] at hu
        simp only [Option.some.injEq] at hu
        subst hu
        have hcs : c.sorted = true := sorted_child hs (List.mem_iff_getElem?.2 ⟨i, hc⟩)
        have hc's := sorted_update f hf hn p c c' hcs hcu
        have hnf := update_name_flag p c c' f (hn c).1 (hn c).2 hcu
        rw [sorted_mk]
        refine ⟨increasing_set (sorted_increasing hs) hc hnf.1, ?_⟩
        intro y hy
        rcases List.mem_or_eq_of_mem_set hy with h | h
        · exact sorted_child hs h
        · rw [h]; exact hc's

theorem sorted_of_resolve {root sd S : Node} {q : List String} {ps : Ptr} {e : String} {i : Nat}
    (hs : root.sorted = true) (h2 : sd.find e = some (i, S))
    (h1 : root.findPath q = some (ps, sd)) : S.sorted = true :=
  sorted_child (findPath_sorted _ _ _ _ hs h1) (find_mem h2)

theorem sortedRes_same {root : Node} (hs : root.sorted = true) (b : Bool) :
    SortedRes (some (b, root)) := by
  intro b' r h
  simp only [Option.some.injEq, Prod.mk.injEq] at h
  rw [← h.2]
  exact hs

theorem sortedRes_none : SortedRes none := by
  intro b r h
  cases h

theorem sortedRes_update_add {root : Node} (p : Ptr) {name : String} {isDirectory : Bool}
    {nodes : Nodes} (hs : root.sorted = true)
    (hnew : (Node.mk name isDirectory nodes).sorted = true) :
    SortedRes
      (match root.update p (fun d => (d.add name isDirectory nodes).2) with
      | some root' => some (true, root')
      | none => none) := by
  cases hu : root.update p (fun d => (d.add name isDirectory nodes).2) with
  | none => exact sortedRes_none
  | some r =>
    exact sortedRes_same (sorted_update _ (fun x hx => add_sorted name isDirectory nodes hx hnew)
      (fun x => add_name_flag x name isDirectory nodes) p root r hs hu) true

theorem sortedRes_update_remove {root : Node} (p : Ptr) (name : String)
    (hs : root.sorted = true) :
    SortedRes
      (match root.update p (fun d => d.remove name) with
      | some root' => some (true, root')
      | none => none) := by
  cases hu : root.update p (fun d => d.remove name) with
  | none => exact sortedRes_none
  | some r =>
    exact sortedRes_same (sorted_update _ (fun x hx => remove_sorted name hx)
      (fun x => remove_name_flag x name) p root r hs hu) true

theorem sortedRes_move_tail {root : Node} (srcDir : Ptr) (srcEnd : String) (q : Option Ptr)
    {name : String} {isDirectory : Bool} {nodes : Nodes} (hs : root.sorted = true)
    (hnew : (Node.mk name isDirectory nodes).sorted = true) :
    SortedRes
      (match root.update srcDir (fun d => d.remove srcEnd) with
      | none => none
      | some root1 =>
        match q with
        | none => some (true, root1)
        | some p =>
          match root1.update p (fun d => (d.add name isDirectory nodes).2) with
          | some root' => some (true, root')
          | none => none) := by
  cases hu : root.update srcDir (fun d => d.remove srcEnd) with
  | none => exact sortedRes_none
  | some root1 =>
    have h1 : root1.sorted = true := sorted_update _ (fun x hx => remove_sorted srcEnd hx)
      (fun x => remove_name_flag x srcEnd) srcDir root root1 hs hu
    cases q with
    | none => exact sortedRes_same h1 true
    | some p => exact sortedRes_update_add p h1 hnew

theorem sorted_leaf (name : String) (isDirectory : Bool) :
    (Node.mk name isDirectory []).sorted = true := rfl

theorem sortedRes_makeDirectoryNode (root : Node) (args : List Path) (hs : root.sorted = true) :
    SortedRes (makeDirectoryNode root args) := by
  unfold makeDirectoryNode
  repeat' first
    | exact sortedRes_same hs _
    | exact sortedRes_none
    | exact sortedRes_update_add _ hs (sorted_leaf _ _)
    | split

theorem sortedRes_makeFileNode (root : Node) (args : List Path) (hs : root.sorted = true) :
    SortedRes (makeFileNode root args) := by
  unfold makeFileNode
  repeat' first
    | exact sortedRes_same hs _
    | exact sortedRes_none
    | exact sortedRes_update_add _ hs (sorted_leaf _ _)
    | split

theorem sortedRes_removeNode (root : Node) (args : List Path) (hs : root.sorted = true) :
    SortedRes (removeNode root args) := by
  unfold removeNode
  repeat' first
    | exact sortedRes_same hs _
    | exact sortedRes_none
    | exact sortedRes_update_remove _ _ hs
    | split

theorem sortedRes_copyNode (root : Node) (args : List Path) (hs : root.sorted = true) :
    SortedRes (copyNode root args) := by
  unfold copyNode
  repeat' first
    | exact sortedRes_same hs _
    | exact sortedRes_none
    | exact sortedRes_update_add _ hs
        (sorted_mk_of _ (sorted_of_resolve hs (by assumption) (by assumption)))
    | split

theorem sortedRes_moveNode (root : Node) (args : List Path) (hs : root.sorted = true) :
    SortedRes (moveNode root args) := by
  unfold moveNode
  repeat' first
    | exact sortedRes_same hs _
    | exact sortedRes_none
    | exact sortedRes_move_tail _ _ _ hs
        (sorted_mk_of _ (sorted_of_resolve hs (by assumption) (by assumption)))
    | split

theorem sortedRes_processCmdLine (root : Node) (cmdLine : String) (hs : root.sorted = true) :
    SortedRes (processCmdLine root cmdLine) := by
  unfold processCmdLine
  split
  · exact sortedRes_same hs _
  · rename_i cmd rest _
    unfold commands
    split_ifs
    · simp only
      split
      · exact sortedRes_same hs _
      · exact sortedRes_makeDirectoryNode _ _ hs
    · simp only
      split
      · exact sortedRes_same hs _
      · exact sortedRes_makeFileNode _ _ hs
    · simp only
      split
      · exact sortedRes_same hs _
      · exact sortedRes_removeNode _ _ hs
    · simp only
      split
      · exact sortedRes_same hs _
      · exact sortedRes_copyNode _ _ hs
    · simp only
      split
      · exact sortedRes_same hs _
      · exact sortedRes_moveNode _ _ hs
    · exact sortedRes_same hs _

theorem processAll_sorted : ∀ (lines : List String) (root r : Node),
    root.sorted = true → processAll root lines = some r → r.sorted = true
  | [], root, r => by
    intro hs h
    simp only [processAll, Option.some.injEq] at h
    rw [← h]
    exact hs
  | line :: rest, root, r => by
    intro hs h
    simp only [processAll] at h
    cases hp : processCmdLine root line with
    | none => rw [hp] at h; cases h
    | some x =>
      obtain ⟨b, root'⟩ := x
      rw [hp] at h
      exact processAll_sorted rest root' r (sortedRes_processCmdLine root line hs b root' hp) h

/-- The children of every node stay strictly increasing by name along every
sequence of command lines from the initial empty root whose processing is
defined, whether the lines succeed or fail. -/
theorem sorted_invariant (lines : List String) (root : Node)
    (h : processAll initRoot lines = some root) : root.sorted = true :=
  processAll_sorted lines initRoot root rfl h

/-- The tree after `md /b`, `md /a`, `mf /a`, `cp /b /a`, `mv /b /c` is sorted. -/
theorem sorted_invariant_witness :
    Node.sorted ⟨"", true, [⟨"a", true, [⟨"b", true, []⟩]⟩, ⟨"c", true, []⟩]⟩ = true :=
  sorted_invariant ["md /b", "md /a", "mf /a", "cp /b /a", "mv /b /c"] _ rfl

/-- C16 (the code at the failing input): after `md /a`, `md /b`, `mf /c` the
command `mv /a /b` erases `a` from the root, which moves the file `c` into the
slot that the pointer to `b` addresses, and inserts `a` there: the file `c`
has the child `a`. -/
theorem moveNode_into_file :
    processAll initRoot ["md /a", "md /b", "mf /c"] =
      some ⟨"", true, [⟨"a", true, []⟩, ⟨"b", true, []⟩, ⟨"c", false, []⟩]⟩ ∧
    processCmdLine ⟨"", true, [⟨"a", true, []⟩, ⟨"b", true, []⟩, ⟨"c", false, []⟩]⟩
      "mv /a /b" =
      some (true, ⟨"", true, [⟨"b", true, []⟩, ⟨"c", false, [⟨"a", true, []⟩]⟩]⟩) :=
  ⟨rfl, rfl⟩

/-- C17 (the code at the failing input): from the initial empty root, the
command line `md /` succeeds and gives the root a child with the empty name;
`rm /`, which has the guard against the root path, fails. -/
theorem makeDirectoryNode_root_path :
    splitPath "/" = [""] ∧
    processCmdLine initRoot "md /" = some (true, ⟨"", true, [⟨"", true, []⟩]⟩) ∧
    processCmdLine initRoot "rm /" = some (false, initRoot) :=
  ⟨rfl, rfl, rfl⟩

/-! ## Resolution and insertion in the words of the specification -/

theorem find_eq_childNamed {this : Node} (name : String) (hs : Increasing this.nodes_) :
    (this.find name).map Prod.snd = childNamed this.nodes_ name := by
  unfold childNamed
  cases hc : this.nodes_.find? (fun c => decide (c.name_ = name)) with
  | none =>
    have hall := List.find?_eq_none.1 hc
    have hf := @find_eq_none_of_not_mem this name (by
      intro c hmem
      simpa using hall c hmem)
    rw [hf]
    rfl
  | some c =>
    have hmem := List.mem_of_find?_eq_some hc
    have hname : c.name_ = name := by simpa using List.find?_some hc
    obtain ⟨i, hi⟩ := find_of_mem hs hmem
    rw [hname] at hi
    rw [hi]
    rfl

theorem findPath_eq_resolveDirs : ∀ (segs : List String) (this : Node),
    this.sorted = true → (this.findPath segs).map Prod.snd = resolveDirs this segs
  | [], this => by
    intro _
    rfl
  | seg :: rest, this => by
    intro hs
    have hc := find_eq_childNamed seg (sorted_increasing hs)
    simp only [Node.findPath, resolveDirs]
    cases hf : this.find seg with
    | none =>
      rw [hf] at hc
      rw [← hc]
      rfl
    | some x =>
      obtain ⟨i, next⟩ := x
      rw [hf] at hc
      rw [← hc]
      simp only [Option.map_some']
      have ih := findPath_eq_resolveDirs rest next (sorted_child hs (find_mem hf))
      split_ifs with hd
      · rw [← ih]
        cases next.findPath rest with
        | none => rfl
        | some y => rfl
      · rfl

/-- C18 (counterexample): in the tree whose root has the single file `f`, the
sequence `f` has no intermediate segment and its final segment names an
existing file, yet `find(begin, end)` returns no node. -/
theorem findPath_final_file :
    Node.findPath ⟨"", true, [⟨"f", false, []⟩]⟩ ["f"] = none ∧
    Node.find ⟨"", true, [⟨"f", false, []⟩]⟩ "f" = some (0, ⟨"f", false, []⟩) ∧
    ¬ ∃ p, Node.findPath ⟨"", true, [⟨"f", false, []⟩]⟩ ["f"] = some (p, ⟨"f", false, []⟩) := by
  refine ⟨rfl, rfl, ?_⟩
  rintro ⟨p, h⟩
  have h2 : Node.findPath ⟨"", true, [⟨"f", false, []⟩]⟩ ["f"] = none := rfl
  rw [h2] at h
  cases h

/-- C18 (amended): in a tree with strictly sorted children, `find(begin, end)`
started at a node returns the node reached by looking up each segment in turn
as a child, and returns none exactly when some segment is missing or some
segment, the final one included, names a file (`resolveDirs`); the pointer it
returns addresses the node it returns; the empty sequence resolves to the
starting node; and a sequence whose final segment names a file resolves to
none. -/
theorem findPath_resolves (this : Node) (segs : List String)
    (hs : this.sorted = true) :
    (this.findPath segs).map Prod.snd = resolveDirs this segs ∧
    (∀ p d, this.findPath segs = some (p, d) → this.deref p = some d) ∧
    this.findPath [] = some ([], this) ∧
    (∀ (q : List String) (last : String) (p : Ptr) (d c : Node),
      this.findPath q = some (p, d) → c ∈ d.nodes_ → c.name_ = last →
      c.isDirectory_ = false → this.findPath (q ++ [last]) = none) := by
  refine ⟨findPath_eq_resolveDirs segs this hs, findPath_deref segs this, rfl, ?_⟩
  intro q last p d c hq hc hname hfile
  obtain ⟨i, hi⟩ := find_of_mem (sorted_increasing (findPath_sorted _ _ _ _ hs hq)) hc
  rw [hname] at hi
  rw [findPath_append, hq]
  simp only [findPath_singleton, hi, hfile]
  rfl

/-- C18 (witness): the segments `a`, `b` in the tree with the directory `/a/b`
and the file `/a/f`. -/
theorem findPath_resolves_witness :
    (Node.findPath ⟨"", true, [⟨"a", true, [⟨"b", true, []⟩, ⟨"f", false, []⟩]⟩]⟩
      ["a", "b"]).map Prod.snd =
      resolveDirs ⟨"", true, [⟨"a", true, [⟨"b", true, []⟩, ⟨"f", false, []⟩]⟩]⟩ ["a", "b"] ∧
    resolveDirs ⟨"", true, [⟨"a", true, [⟨"b", true, []⟩, ⟨"f", false, []⟩]⟩]⟩ ["a", "b"] =
      some ⟨"b", true, []⟩ :=
  ⟨(findPath_resolves ⟨"", true, [⟨"a", true, [⟨"b", true, []⟩, ⟨"f", false, []⟩]⟩]⟩
    ["a", "b"] (by decide)).1, rfl⟩

/-- C19: for a node whose children are strictly sorted by name: when a child
with the name exists, `add` returns none and leaves the node as it is;
otherwise the children `l1 ++ l2` become `l1 ++ new :: l2`, still strictly
sorted, `new` having the given name, flag and children, and `add` returns the
offset of `new`.  And `find` returns the child with the name when there is one
and none otherwise. -/
theorem add_never_overwrites (this : Node) (name : String) (isDirectory : Bool)
    (nodes : Nodes)
    (hs : Increasing this.nodes_) :
    ((∃ c ∈ this.nodes_, c.name_ = name) →
      this.add name isDirectory nodes = (none, this)) ∧
    ((∀ c ∈ this.nodes_, c.name_ ≠ name) →
      ∃ l1 l2, this.nodes_ = l1 ++ l2 ∧
        this.add name isDirectory nodes =
          (some l1.length, ⟨this.name_, this.isDirectory_,
            l1 ++ ⟨name, isDirectory, nodes⟩ :: l2⟩) ∧
        Increasing (l1 ++ ⟨name, isDirectory, nodes⟩ :: l2) ∧
        (l1 ++ Node.mk name isDirectory nodes :: l2)[l1.length]? =
          some ⟨name, isDirectory, nodes⟩) ∧
    (∀ c ∈ this.nodes_, c.name_ = name → ∃ i, this.find name = some (i, c) ∧
      this.nodes_[i]? = some c) ∧
    ((∀ c ∈ this.nodes_, c.name_ ≠ name) → this.find name = none) := by
  refine ⟨?_, ?_, ?_, find_eq_none_of_not_mem⟩
  · rintro ⟨c, hc, hname⟩
    obtain ⟨i, hi⟩ := find_of_mem hs hc
    rw [hname] at hi
    exact add_of_find_eq_some isDirectory nodes hi
  · intro habs
    have hf := find_eq_none_of_not_mem habs
    obtain ⟨hle, _, _⟩ := lower_bound_spec name hs
    refine ⟨this.nodes_.take (lower_bound this.nodes_ name),
      this.nodes_.drop (lower_bound this.nodes_ name), (List.take_append_drop _ _).symm, ?_,
      increasing_insert isDirectory nodes hs habs, ?_⟩
    · rw [add_of_find_eq_none isDirectory nodes hf]
      simp only [Node.inserted, List.length_take, Nat.min_eq_left hle]
    · rw [List.getElem?_append_right (le_refl _)]
      simp
  · intro c hc hname
    obtain ⟨i, hi⟩ := find_of_mem hs hc
    rw [hname] at hi
    exact ⟨i, hi, (find_eq_some hi).1⟩

/-- C19 (witness): adding `b` to a node with the children `a` and `c`. -/
theorem add_never_overwrites_witness :
    ∃ l1 l2, [Node.mk "a" true [], Node.mk "c" false []] = l1 ++ l2 ∧
      Node.add ⟨"d", true, [⟨"a", true, []⟩, ⟨"c", false, []⟩]⟩ "b" true [] =
        (some l1.length, ⟨"d", true, l1 ++ ⟨"b", true, []⟩ :: l2⟩) ∧
      Increasing (l1 ++ ⟨"b", true, []⟩ :: l2) ∧
      (l1 ++ Node.mk "b" true [] :: l2)[l1.length]? = some ⟨"b", true, []⟩ :=
  (add_never_overwrites ⟨"d", true, [⟨"a", true, []⟩, ⟨"c", false, []⟩]⟩ "b" true []
    ((increasing_iff _).1 (by decide))).2.1 (by decide)

/-! ## The dump -/

theorem cstr_eq_self {s : String} (h : ∀ c ∈ s.data, c ≠ Char.ofNat 0) : cstr s = s := by
  unfold cstr
  have : s.data.takeWhile (fun c => decide (c ≠ Char.ofNat 0)) = s.data := by
    rw [List.takeWhile_eq_self_iff]
    intro c hc
    simpa using h c hc
  rw [this]

theorem dumpPrefix_no_nul : ∀ d : Nat, ∀ c ∈ (dumpPrefix d).data, c ≠ Char.ofNat 0
  | 0 => by
    intro c hc
    have h : (dumpPrefix 0).data = ['|'] := rfl
    rw [h] at hc
    rw [List.mem_singleton.1 hc]
    decide
  | d + 1 => by
    intro c hc
    have h : (dumpPrefix (d + 1)).data = (dumpPrefix d).data ++ [' ', '|'] := by
      simp only [dumpPrefix, String.data_append]
    rw [h] at hc
    rcases List.mem_append.1 hc with h1 | h1
    · exact dumpPrefix_no_nul d c h1
    · simp only [List.mem_cons, List.mem_singleton, List.not_mem_nil, or_false] at h1
      rcases h1 with rfl | rfl <;> decide

theorem dumpPrefix_ne_empty : ∀ d : Nat, dumpPrefix d ≠ ""
  | 0 => by decide
  | d + 1 => by
    intro h
    have h2 := congrArg String.data h
    simp only [dumpPrefix, String.data_append] at h2
    simp at h2

mutual
/-- Below the root, `printTree` with the prefix of depth `d + 1` writes the
lines the specification gives for that depth. -/
theorem printTree_eq : ∀ (n : Node) (d : Nat),
    n.printTree (dumpPrefix d) = dumpLines (d + 1) n
  | ⟨name, isDirectory, nodes⟩, d => by
    have hrec := printTreeList_eq nodes (d + 1)
    simp only [Node.printTree, dumpLines, dumpPrefix_ne_empty d, ne_eq, not_false_eq_true,
      if_true, cstr_eq_self (dumpPrefix_no_nul d)]
    rw [← hrec]
    rfl
/-- The same for a forest. -/
theorem printTreeList_eq : ∀ (ns : List Node) (d : Nat),
    Node.printTreeList ns (dumpPrefix d) = dumpLinesList (d + 1) ns
  | [], d => by simp only [Node.printTreeList, dumpLinesList]
  | c :: cs, d => by
    simp only [Node.printTreeList, dumpLinesList, printTree_eq c d, printTreeList_eq cs d]
end

mutual
theorem dumpLines_length : ∀ (n : Node) (d : Nat), (dumpLines d n).length = n.size
  | ⟨name, isDirectory, nodes⟩, 0 => by
    simp only [dumpLines, List.length_cons, Node.size, dumpLinesList_length nodes 1]
    omega
  | ⟨name, isDirectory, nodes⟩, d + 1 => by
    simp only [dumpLines, List.length_cons, Node.size, dumpLinesList_length nodes (d + 2)]
    omega
theorem dumpLinesList_length : ∀ (ns : List Node) (d : Nat),
    (dumpLinesList d ns).length = Node.sizeList ns
  | [], d => by simp only [dumpLinesList, List.length_nil, Node.sizeList]
  | c :: cs, d => by
    simp only [dumpLinesList, List.length_append, Node.sizeList, dumpLines_length c d,
      dumpLinesList_length cs d]
end

/-- C20 (counterexample): a directory whose name is `a`, a NUL character and
`b` is dumped as the line `|_a/`: `printf` stops reading the name for `%s` at
the NUL character, and the line is not `|`, `_`, the name and `/`. -/
theorem printTree_stops_at_nul :
    Node.printTree ⟨"", true, [⟨String.mk ['a', Char.ofNat 0, 'b'], true, []⟩]⟩ "" =
      ["/", "|_a/"] ∧
    "|_a/" ≠ "|" ++ "_" ++ String.mk ['a', Char.ofNat 0, 'b'] ++ "/" :=
  ⟨rfl, by decide⟩

/-- C20 (amended): `printTree("")` on the root writes one line per node, in
depth-first pre-order with the children in their order: `/` for the root, and
for a node with `d >= 1` ancestors the string `|`, `d - 1` copies of ` |`, `_`,
the name up to its first NUL character (the whole name when it has none), and
`/` exactly when the node is a directory (`dumpLines`). -/
theorem printTree_format (root : Node) :
    root.printTree "" = dumpLines 0 root ∧ (root.printTree "").length = root.size := by
  have h : root.printTree "" = dumpLines 0 root := by
    cases root with
    | mk name isDirectory nodes =>
      have hrec := printTreeList_eq nodes 0
      simp only [Node.printTree, dumpLines, ne_eq, not_true_eq_false, if_false]
      rw [← hrec]
      rfl
  exact ⟨h, by rw [h, dumpLines_length]⟩
end Fme
